import Mathlib

/-! Maglev lookup-table builder of kmesh (`pkg/maglev/maglev.go`)

A shallow embedding of the Maglev load-balancer table builder and of its
publishing path, followed by the properties proved about it.

Conventions of the embedding:

* Go's `uint64` values are natural numbers; every operation that can wrap is
  written with an explicit `% U64`.
* A run that panics (integer division by zero, index out of range) or that
  never leaves a loop is a value of `Fault`; functions that can do so return
  `Except Fault _`.
* The package-level variables `maglevTableSize`, `seedMurmur` and `outer` are
  explicit arguments or fields of an explicit state.
* Slices are lists; a `make` panics on a length that is no `int` (64 bits), the
  memory it needs is not modelled.
* The package `hash` (MurmurHash3) is not among the sources: `Hash128` is an
  argument wherever it is called.
-/

namespace Maglev

/-! ## Constants -/

/-- The number of values of a Go `uint64`. -/
def U64 : Nat := 2 ^ 64

/-- The number of values of a Go `uint32`. -/
def U32 : Nat := 2 ^ 32

/-- Constant `DefaultTableSize uint64 = 16381`. -/
def DefaultTableSize : Nat := 16381

/-- Constant `DefaultHashSeed`. -/
def DefaultHashSeed : String := "JLfvgnHc2kaSUFaI"

/-- Constant `ClusterNameMaxLen`. -/
def ClusterNameMaxLen : Nat := 192

/-! ## Data model -/

/-- An `endpoint.Endpoint`, reduced to what the builder reads of it: the bytes
of `ep.GetAddress().String()`. -/
structure Endpoint where
  address : List UInt8
deriving DecidableEq, Repr

/-- The record `type Backend struct { ep; index int; offset, skip, next uint64 }`. -/
structure Backend where
  ep : Endpoint
  index : Int
  offset : Nat
  skip : Nat
  next : Nat
deriving DecidableEq, Repr

/-- The ways a run can fail to return: the run-time panics the builder can
raise, and a loop that never exits. -/
inductive Fault where
  | divideByZero
  | indexOutOfRange
  | lenOutOfRange
  | diverges
deriving DecidableEq, Repr

instance : DecidableEq (Except Fault (List Int)) := fun a b =>
  match a, b with
  | .ok x, .ok y => if h : x = y then isTrue (by rw [h]) else isFalse (by intro e; cases e; exact h rfl)
  | .error x, .error y =>
      if h : x = y then isTrue (by rw [h]) else isFalse (by intro e; cases e; exact h rfl)
  | .ok _, .error _ => isFalse (by intro e; cases e)
  | .error _, .ok _ => isFalse (by intro e; cases e)

/-! ## The permutation and the population loop -/

/-- Function `getPermutation`: `(b.offset + (b.skip * b.next)) % maglevTableSize`
on `uint64`; the remainder by zero panics. The package variable
`maglevTableSize` is the first argument. -/
def getPermutation (maglevTableSize : Nat) (b : Backend) : Except Fault Nat :=
  if maglevTableSize = 0 then .error .divideByZero
  else .ok ((b.offset + (b.skip * b.next) % U64) % U64 % maglevTableSize)

/-- The collision loop of `getLookupTable`,
`c := getPermutation(b); for lookUpTable[c] >= 0 { b.next++; c = getPermutation(b) }`,
returning the slot `c` and the local `b` it exits with.

The table is not written inside the loop, so the only thing that changes from
one test to the next is `b.next`, a `uint64`. The counter below is the number of
tests still allowed: started at `U64`, it runs out exactly when every value of
`b.next` has been tried and found occupied, that is, when the loop never
exits. -/
def probe (maglevTableSize : Nat) (lookUpTable : List Int) (b : Backend) :
    Nat → Except Fault (Nat × Backend)
  | 0 => .error .diverges
  | fuel + 1 =>
    match getPermutation maglevTableSize b with
    | .error e => .error e
    | .ok c =>
      match lookUpTable[c]? with
      | none => .error .indexOutOfRange
      | some v =>
        if 0 ≤ v then
          probe maglevTableSize lookUpTable { b with next := (b.next + 1) % U64 } fuel
        else .ok (c, b)

/-- Conversion `int(n)` of a `uint64` to Go's 64-bit `int` (two's complement). -/
def toInt (n : Nat) : Int :=
  if n % U64 < 2 ^ 63 then ((n % U64 : Nat) : Int) else ((n % U64 : Nat) : Int) - (U64 : Int)

/-- One iteration of the outer loop of `getLookupTable`, for the loop variable `n`:
`j := int(n) % length; b := backends[j]`, the collision loop on the copy `b`,
then `lookUpTable[c] = b.index`. The trailing `b.next++` changes the copy only
and is dropped with it. -/
def populateStep (maglevTableSize : Nat) (backends : List Backend) (lookUpTable : List Int)
    (n : Nat) : Except Fault (List Int) :=
  let j : Int := Int.tmod (toInt n) (backends.length : Int)
  if j < 0 then .error .indexOutOfRange
  else
    match backends[j.toNat]? with
    | none => .error .indexOutOfRange
    | some b =>
      match probe maglevTableSize lookUpTable b U64 with
      | .error e => .error e
      | .ok (c, b1) => .ok (lookUpTable.set c b1.index)

/-- The outer loop `for n := uint64(0); n < tableSize; n++`, over the values
`ns` the loop variable still has to take. -/
def populate (maglevTableSize : Nat) (backends : List Backend) :
    List Int → List Nat → Except Fault (List Int)
  | lookUpTable, [] => .ok lookUpTable
  | lookUpTable, n :: ns =>
    match populateStep maglevTableSize backends lookUpTable n with
    | .error e => .error e
    | .ok t => populate maglevTableSize backends t ns

/-- Function `getLookupTable`. A `nil` result is the empty list;
`make([]int, tableSize)` panics when `tableSize` is no value of `int`. -/
def getLookupTable (maglevTableSize : Nat) (backends : List Backend) (tableSize : Nat) :
    Except Fault (List Int) :=
  if backends.length = 0 then .ok []
  else if 2 ^ 63 ≤ tableSize then .error .lenOutOfRange
  else populate maglevTableSize backends (List.replicate tableSize (-1)) (List.range tableSize)

/-- The backends `CreateLB` hands to `getLookupTable` for table size `M`: backend
`i` has `index = i`, `0 ≤ offset < M`, `1 ≤ skip < M` and `next = 0`. -/
def ValidBackends (M : Nat) (backends : List Backend) : Prop :=
  ∀ i, ∀ h : i < backends.length,
    (backends.get ⟨i, h⟩).index = (i : Int) ∧ (backends.get ⟨i, h⟩).offset < M ∧
      1 ≤ (backends.get ⟨i, h⟩).skip ∧ (backends.get ⟨i, h⟩).skip < M ∧
      (backends.get ⟨i, h⟩).next = 0

instance (M : Nat) (backends : List Backend) : Decidable (ValidBackends M backends) := by
  unfold ValidBackends; infer_instance

/-! ## The permutation seeder -/

/-- The arithmetic of `getOffsetAndSkip` on the two hash words:
`offset := h1 % m; skip := (h2 % (m - 1)) + 1` on `uint64`. A remainder by zero
panics, `m - 1` and `+ 1` wrap. -/
def offsetAndSkipOfWords (h1 h2 m : Nat) : Except Fault (Nat × Nat) :=
  if m = 0 then .error .divideByZero
  else if (m + U64 - 1) % U64 = 0 then .error .divideByZero
  else .ok (h1 % m, (h2 % ((m + U64 - 1) % U64) + 1) % U64)

/-- Function `getOffsetAndSkip`. The package `hash` is not among the sources: its
`Hash128` is the argument `hash128`, its two results taken as `uint64` words; the
package variable `seedMurmur` is an argument too. -/
def getOffsetAndSkip (hash128 : List UInt8 → Nat → Nat × Nat) (seedMurmur : Nat)
    (address : List UInt8) (m : Nat) : Except Fault (Nat × Nat) :=
  offsetAndSkipOfWords ((hash128 address seedMurmur).1 % U64) ((hash128 address seedMurmur).2 % U64) m

/-! ## The population algorithm as the specification words it

Section 4.3 of the specification: `j = n mod N`, `b = backends[j]` taken by
reference, the same collision loop, `table[c] = b.index`, `b.next += 1`, the
counter being kept in the backend list from one visit of backend `j` to the
next. The slot `c` is computed on the same 64-bit words as in the code. -/

/-- Constant `MaglevMapMaxEntries`: the number of entries the outer map has room for. -/
def MaglevMapMaxEntries : Nat := 65536

/-- Modelled from the spec: the external two-level store behind `ebpf.Map` (the
library `github.com/cilium/ebpf` and the kernel's maps are outside the
repository), as the publisher of sections 4.4, 6 and 7 of the specification,
with its failure modes. `inners` are the inner tables created so far, each the
blob it stores under key 0, and the handle of an inner table is its position (a
table no handle refers to any more stays in the list); `outer` binds 192-byte
keys to handles, one binding a key at most; `memory` is what the kernel will
answer to the allocations still to come, in order: `true` when it has the
memory for the table, `false` (or no answer left) when it has not. -/
structure Store where
  inners : List (List Nat)
  outer : List (List UInt8 × Nat)
  memory : List Bool
deriving DecidableEq, Repr

/-- Modelled from the spec: `create_inner_table(size)`, the call `ebpf.NewMap`
of `createMaglevInnerMap`: a fresh single-entry table whose value holds
`valueSize / 4` zeroed `uint32`. It fails (`InnerCreateError`) for the value size
0 and when the kernel has no memory for the table; otherwise it returns the
handle. -/
def Store.createInner (s : Store) (valueSize : Nat) : Option Nat × Store :=
  if valueSize = 0 then (none, s)
  else
    match s.memory with
    | true :: rest =>
      (some s.inners.length,
        { s with inners := s.inners ++ [List.replicate (valueSize / 4) 0], memory := rest })
    | _ :: rest => (none, { s with memory := rest })
    | [] => (none, s)

/-- Modelled from the spec: writing the blob at key 0 of an inner table,
`inner.Update(key, backendIDs, 0)`. It fails (`InnerUpdateError`) when the
handle is no table or when the blob does not fill the value of the table
exactly: as many `uint32` as the value holds. -/
def Store.innerUpdate (s : Store) (handle : Nat) (blob : List Nat) : Option Store :=
  match s.inners[handle]? with
  | none => none
  | some value =>
    if blob.length = value.length then some { s with inners := s.inners.set handle blob }
    else none

/-- The handle bound to a key of the outer map. -/
def Store.outerLookup (s : Store) (key : List UInt8) : Option Nat :=
  (s.outer.find? (fun e => decide (e.1 = key))).map (fun e => e.2)

/-- Modelled from the spec: `set_outer(key, handle)`, the call
`outer.Update(key, fd, flags)`. Flag 0 (any) replaces or inserts; flag 1
(no-exist) fails on a bound key; flag 2 (exist) fails on an unbound key. A new
key needs room: it fails (`OuterUpdateError`) when the map holds
`MaglevMapMaxEntries` bindings already. -/
def Store.outerUpdate (s : Store) (key : List UInt8) (handle flags : Nat) : Option Store :=
  if flags = 1 ∧ (s.outerLookup key).isSome then none
  else if flags = 2 ∧ (s.outerLookup key).isNone then none
  else if 2 < flags then none
  else if (s.outerLookup key).isNone ∧ MaglevMapMaxEntries ≤ s.outer.length then none
  else some { s with outer := (key, handle) :: s.outer.filter (fun e => decide (e.1 ≠ key)) }

/-- The package variables `outer` (whether it is non-nil), `seedMurmur` and
`maglevTableSize`, together with the store the handle `outer` refers to. -/
structure State where
  outerLoaded : Bool
  seedMurmur : Nat
  maglevTableSize : Nat
  store : Store
deriving DecidableEq, Repr

/-- The errors the package returns. -/
inductive Err where
  | clusterIsNil
  | outerNotInitialized
  | innerCreate
  | updatingBackends
  | updatingCluster
  | updateMaglevTableFail (cause : Err)
  | loadOuterMapFailed
  | cannotDecodeSeed
  | seedNot12Bytes (len : Nat)
deriving DecidableEq, Repr

/-- Go's `copy(dst, src)`: the first `min(len(dst), len(src))` elements of `dst`
are overwritten with those of `src`. -/
def goCopy (dst src : List UInt8) : List UInt8 :=
  src.take (min dst.length src.length) ++ dst.drop (min dst.length src.length)

/-- The key `updateMaglevTable` builds for a cluster name:
`if len(clusterName) > 192 { clusterName = clusterName[:192] }`,
`var maglevKey [ClusterNameMaxLen]byte`, `copy(maglevKey[:], []byte(clusterName))`. -/
def maglevKey (clusterName : List UInt8) : List UInt8 :=
  let name := if clusterName.length > 192 then clusterName.take 192 else clusterName
  goCopy (List.replicate ClusterNameMaxLen 0) name

/-- Function `createMaglevInnerMap(tableSize uint32)`: value size
`uint32(4) * tableSize` on `uint32`; `none` is the error of `ebpf.NewMap`. -/
def createMaglevInnerMap (s : Store) (tableSize : Nat) : Option Nat × Store :=
  s.createInner ((4 * tableSize) % U32)

/-- Function `updateMaglevTable`: the returned error (`none` for `nil`) and the
state after the call. -/
def updateMaglevTable (st : State) (backendIDs : List Nat) (clusterName : List UInt8) :
    Option Err × State :=
  if st.outerLoaded = false then (some .outerNotInitialized, st)
  else
    match createMaglevInnerMap st.store (st.maglevTableSize % U32) with
    | (none, store1) => (some .innerCreate, { st with store := store1 })
    | (some inner, store1) =>
      match store1.innerUpdate inner backendIDs with
      | none => (some .updatingBackends, { st with store := store1 })
      | some store2 =>
        match store2.outerUpdate (maglevKey clusterName) inner 0 with
        | none => (some .updatingCluster, { st with store := store2 })
        | some store3 => (none, { st with store := store3 })

/-- The conditions under which `updateMaglevTable` publishes a blob under a key:
the package is initialized, the inner table has a value size other than 0 and
the kernel has the memory for it, the blob has as many entries as the table
holds, and the outer map binds the key already or has room for it. -/
def CanPublish (st : State) (backendIDs : List Nat) (key : List UInt8) : Prop :=
  st.outerLoaded = true ∧ (4 * (st.maglevTableSize % U32)) % U32 ≠ 0 ∧
    st.store.memory.head? = some true ∧
    backendIDs.length = (4 * (st.maglevTableSize % U32)) % U32 / 4 ∧
    ((st.store.outerLookup key).isSome ∨ st.store.outer.length < MaglevMapMaxEntries)

instance (st : State) (backendIDs : List Nat) (key : List UInt8) :
    Decidable (CanPublish st backendIDs key) := by
  unfold CanPublish; infer_instance

/-- A `cluster_v2.Cluster`, reduced to what `CreateLB` reads of it: its name and,
per locality of its load assignment, the endpoints. -/
structure Cluster where
  name : List UInt8
  localities : List (List Endpoint)
deriving DecidableEq, Repr

/-- The loop of `CreateLB` that builds the backends of the flattened endpoints,
from index `i` on. -/
def buildBackends (hash128 : List UInt8 → Nat → Nat × Nat) (seedMurmur maglevTableSize : Nat) :
    Nat → List Endpoint → Except Fault (List Backend)
  | _, [] => .ok []
  | i, ep :: eps =>
    match getOffsetAndSkip hash128 seedMurmur ep.address maglevTableSize with
    | .error e => .error e
    | .ok (epOffset, epSkip) =>
      match buildBackends hash128 seedMurmur maglevTableSize (i + 1) eps with
      | .error e => .error e
      | .ok rest => .ok (⟨ep, (i : Int), epOffset, epSkip, 0⟩ :: rest)

/-- The lines `backendIDs := make([]uint32, maglevTableSize)` and
`for i, id := range table { backendIDs[i] = uint32(id) }` of `CreateLB`. -/
def fillBackendIDs (maglevTableSize : Nat) (table : List Int) : Except Fault (List Nat) :=
  if table.length ≤ maglevTableSize then
    .ok (table.map (fun id => (id % (U32 : Int)).toNat)
      ++ List.replicate (maglevTableSize - table.length) 0)
  else .error .indexOutOfRange

/-- Function `CreateLB`; `none` is the `nil` cluster. The result is the returned
error (`none` for `nil`) and the state after the call, or a fault. -/
def CreateLB (hash128 : List UInt8 → Nat → Nat × Nat) (st : State) (cluster : Option Cluster) :
    Except Fault (Option Err × State) :=
  match cluster with
  | none => .ok (some .clusterIsNil, st)
  | some cl =>
    let flatEps := cl.localities.foldl (fun acc eps => acc ++ eps) []
    match buildBackends hash128 st.seedMurmur st.maglevTableSize 0 flatEps with
    | .error e => .error e
    | .ok backends =>
      match getLookupTable st.maglevTableSize backends st.maglevTableSize with
      | .error e => .error e
      | .ok table =>
        match fillBackendIDs st.maglevTableSize table with
        | .error e => .error e
        | .ok backendIDs =>
          match updateMaglevTable st backendIDs cl.name with
          | (some err, st1) => .ok (some (.updateMaglevTableFail err), st1)
          | (none, st1) => .ok (none, st1)

/-! ## Initialization -/

/-- The value of a character of the standard base64 alphabet. -/
def b64Digit (c : Char) : Option Nat :=
  if 65 ≤ c.toNat ∧ c.toNat ≤ 90 then some (c.toNat - 65)
  else if 97 ≤ c.toNat ∧ c.toNat ≤ 122 then some (c.toNat - 97 + 26)
  else if 48 ≤ c.toNat ∧ c.toNat ≤ 57 then some (c.toNat - 48 + 52)
  else if c = '+' then some 62
  else if c = '/' then some 63
  else none

/-- The bytes of one group of four base64 characters; `keep` is the number of
bytes the group stands for (3, or 2 and 1 for a padded group). -/
def b64Group (a b c d : Nat) (keep : Nat) : List UInt8 :=
  let v := a * 262144 + b * 4096 + c * 64 + d
  [UInt8.ofNat (v / 65536 % 256), UInt8.ofNat (v / 256 % 256), UInt8.ofNat (v % 256)].take keep

/-- Decoding of padded standard base64 (RFC 4648), group by group; padding is
accepted in the last group only. -/
def b64Groups : List Char → Option (List UInt8)
  | [] => some []
  | a :: b :: c :: d :: rest =>
    match b64Digit a, b64Digit b with
    | some va, some vb =>
      if rest.isEmpty ∧ c = '=' ∧ d = '=' then some (b64Group va vb 0 0 1)
      else
        match b64Digit c with
        | none => none
        | some vc =>
          if rest.isEmpty ∧ d = '=' then some (b64Group va vb vc 0 2)
          else
            match b64Digit d, b64Groups rest with
            | some vd, some bytes => some (b64Group va vb vc vd 3 ++ bytes)
            | _, _ => none
    | _, _ => none
  | _ => none

/-- The call `base64.StdEncoding.DecodeString`: carriage returns and line feeds
are skipped, the rest is padded standard base64; `none` is a decoding error. -/
def base64Decode (s : String) : Option (List UInt8) :=
  b64Groups (s.toList.filter (fun c => decide (c ≠ '\r' ∧ c ≠ '\n')))

/-- The seed `uint32(d[0])<<24 | uint32(d[1])<<16 | uint32(d[2])<<8 | uint32(d[3])`. -/
def seedOfBytes (d : List UInt8) : Nat :=
  (((d.getD 0 0).toNat <<< 24) % U32) ||| (((d.getD 1 0).toNat <<< 16) % U32)
    ||| (((d.getD 2 0).toNat <<< 8) % U32) ||| (d.getD 3 0).toNat

/-- Function `InitMaglevMap` with the seed constant as an argument. `pinned` is
whether `ebpf.LoadPinnedMap` finds the outer map. The result is the returned error
(`none` for `nil`) and the state after the call. -/
def InitMaglevMapWith (hashSeed : String) (pinned : Bool) (st : State) : Option Err × State :=
  let st1 := { st with maglevTableSize := DefaultTableSize }
  if pinned = false then (some .loadOuterMapFailed, st1)
  else
    let st2 := { st1 with outerLoaded := true }
    match base64Decode hashSeed with
    | none => (some .cannotDecodeSeed, st2)
    | some d =>
      if d.length ≠ 12 then (some (.seedNot12Bytes d.length), st2)
      else (none, { st2 with seedMurmur := seedOfBytes d })

/-- Function `InitMaglevMap`. -/
def InitMaglevMap (pinned : Bool) (st : State) : Option Err × State :=
  InitMaglevMapWith DefaultHashSeed pinned st

/-! ## Rebuilding after an endpoint is removed -/

/-- The indices `CreateLB` assigns: position in the list, from `i` on. -/
def reindex : Nat → List Backend → List Backend
  | _, [] => []
  | i, b :: bs => { b with index := (i : Int) } :: reindex (i + 1) bs

/-- The backends `CreateLB` builds once the endpoint at position `p` is gone:
the remaining endpoints keep their order and their (offset, skip), which depend
on the address only, and are indexed `0, 1, …` again. -/
def removeAndReindex (p : Nat) (backends : List Backend) : List Backend :=
  reindex 0 (backends.eraseIdx p)

/-! ## Measures on tables -/

/-- The quotient rounded up, `⌈a / b⌉`. -/
def ceilDiv (a b : Nat) : Nat := (a + b - 1) / b

/-- The number of slots in which two tables differ. -/
def diffCount (t1 t2 : List Int) : Nat :=
  ((List.zip t1 t2).filter (fun p => decide (p.1 ≠ p.2))).length

/-- The number of loop variables `n < M` with `n % N = i`: the turns of backend `i`. -/
def turns (M N i : Nat) : Nat :=
  ((List.range M).filter (fun n => decide (n % N = i))).length

/-! ## A table size above `2^32` -/

/-- The least prime above `2^32`, `2^32 + 15`. -/
def wrapSize : Nat := 4294967311

/-- A backend for the table size `wrapSize`: index 0, offset 0 and skip `2^32`. -/
def wrapBackend : Backend := ⟨⟨[]⟩, 0, 0, 4294967296, 0⟩

/-- Modular exponentiation by repeated squaring, `a ^ e % m` for `e < 2 ^ bits`. -/
def powMod (a m : Nat) : Nat → Nat → Nat
  | 0, _ => 1 % m
  | bits + 1, e =>
    if e % 2 = 0 then powMod a m bits (e / 2) * powMod a m bits (e / 2) % m
    else powMod a m bits (e / 2) * powMod a m bits (e / 2) % m * a % m

/-! ## Predicates used in the proofs -/


/-- The slot the backend `b` tries when its counter is `k` holds a backend. -/
def occAt (M : Nat) (t : List Int) (b : Backend) (k : Nat) : Prop :=
  ∃ c v, getPermutation M { b with next := k } = .ok c ∧ t[c]? = some v ∧ 0 ≤ v

/-- The slot the backend `b` tries when its counter is `k` is in the table and unassigned. -/
def freeAt (M : Nat) (t : List Int) (b : Backend) (k : Nat) : Prop :=
  ∃ c v, getPermutation M { b with next := k } = .ok c ∧ t[c]? = some v ∧ v < 0

/-- The state of the table after `n` iterations of the outer loop over `N`
backends: it has `M` slots, each unassigned (`-1`) or a backend index, `n` of
them assigned, and index `i` has been written once for each of its turns. -/
structure Inv (M N n : Nat) (t : List Int) : Prop where
  len : t.length = M
  vals : ∀ (c : Nat) (v : Int), t[c]? = some v → v = -1 ∨ (0 ≤ v ∧ v < (N : Int))
  filled : t.countP (fun v => decide (0 ≤ v)) = n
  share : ∀ i : Nat, t.count (i : Int) = turns n N i

/-! # Properties -/

/-! ## Facts about the collision loop -/

theorem probe_succ_occ {M : Nat} {t : List Int} {b : Backend} {k : Nat} (f : Nat)
    (h : occAt M t b k) :
    probe M t { b with next := k } (f + 1) = probe M t { b with next := (k + 1) % U64 } f := by
  obtain ⟨c, v, hc, hv, h0⟩ := h
  simp only [probe, hc, hv, h0, if_true]

theorem probe_succ_free {M : Nat} {t : List Int} {b : Backend} {k c : Nat} {v : Int} (f : Nat)
    (hc : getPermutation M { b with next := k } = .ok c) (hv : t[c]? = some v) (h0 : v < 0) :
    probe M t { b with next := k } (f + 1) = .ok (c, { b with next := k }) := by
  have : ¬ 0 ≤ v := by omega
  simp only [probe, hc, hv, this, if_false]

theorem succ_mod_add (k i : Nat) : ((k + 1) % U64 + i) % U64 = (k + (i + 1)) % U64 := by
  unfold U64; omega

/-- When the counters `k, k+1, …, k+i-1` (modulo `2^64`) hit occupied slots and
`k+i` hits a free one, the loop exits there. -/
theorem probe_run {M : Nat} {t : List Int} {b : Backend} :
    ∀ (i f k c : Nat) (v : Int), i < f → k < U64 →
      (∀ i1, i1 < i → occAt M t b ((k + i1) % U64)) →
      getPermutation M { b with next := (k + i) % U64 } = .ok c → t[c]? = some v → v < 0 →
      probe M t { b with next := k } f = .ok (c, { b with next := (k + i) % U64 }) := by
  intro i
  induction i with
  | zero =>
    intro f k c v hf hk _ hc hv h0
    obtain ⟨f, rfl⟩ : ∃ g, f = g + 1 := ⟨f - 1, by omega⟩
    have hk0 : (k + 0) % U64 = k := by simpa using Nat.mod_eq_of_lt hk
    rw [hk0] at hc ⊢
    exact probe_succ_free f hc hv h0
  | succ i ih =>
    intro f k c v hf hk hocc hc hv h0
    obtain ⟨f, rfl⟩ : ∃ g, f = g + 1 := ⟨f - 1, by omega⟩
    have hk0 : (k + 0) % U64 = k := by simpa using Nat.mod_eq_of_lt hk
    have h1 : occAt M t b k := by
      have h2 := hocc 0 (by omega)
      rwa [hk0] at h2
    rw [probe_succ_occ f h1]
    have hlt : (k + 1) % U64 < U64 := Nat.mod_lt _ (by unfold U64; norm_num)
    have := ih f ((k + 1) % U64) c v (by omega) hlt
      (fun i1 hi1 => by rw [succ_mod_add]; exact hocc (i1 + 1) (by omega))
      (by rw [succ_mod_add]; exact hc) hv h0
    rw [this, succ_mod_add]

/-- When the next `f` counters all hit occupied slots, `f` tests do not leave the loop. -/
theorem probe_all_occ {M : Nat} {t : List Int} {b : Backend} :
    ∀ (f k : Nat), k < U64 → (∀ i, i < f → occAt M t b ((k + i) % U64)) →
      probe M t { b with next := k } f = .error .diverges := by
  intro f
  induction f with
  | zero => intro k _ _; rfl
  | succ f ih =>
    intro k hk hocc
    have hk0 : (k + 0) % U64 = k := by simpa using Nat.mod_eq_of_lt hk
    have h1 : occAt M t b k := by
      have h2 := hocc 0 (by omega)
      rwa [hk0] at h2
    rw [probe_succ_occ f h1]
    exact ih _ (Nat.mod_lt _ (by unfold U64; norm_num))
      (fun i hi => by rw [succ_mod_add]; exact hocc (i + 1) (by omega))

/-- What an exit of the collision loop tells: the counter it stopped at, that
the slot there was free, and that every counter before it hit an occupied slot. -/
theorem probe_ok_inv {M : Nat} {t : List Int} {b : Backend} :
    ∀ (f k c : Nat) (b1 : Backend), k < U64 →
      probe M t { b with next := k } f = .ok (c, b1) →
      ∃ i, i < f ∧ b1 = { b with next := (k + i) % U64 } ∧
        getPermutation M { b with next := (k + i) % U64 } = .ok c ∧
        (∃ v, t[c]? = some v ∧ v < 0) ∧ ∀ i1, i1 < i → occAt M t b ((k + i1) % U64) := by
  intro f
  induction f with
  | zero => intro k c b1 _ h; simp [probe] at h
  | succ f ih =>
    intro k c b1 hk h
    have hk0 : (k + 0) % U64 = k := by simpa using Nat.mod_eq_of_lt hk
    simp only [probe] at h
    split at h
    · simp at h
    · rename_i c0 hc0
      split at h
      · simp at h
      · rename_i v hv
        split at h
        · rename_i h0
          obtain ⟨i, hi, hb, hc, hfree, hocc⟩ :=
            ih ((k + 1) % U64) c b1 (Nat.mod_lt _ (by unfold U64; norm_num)) h
          rw [succ_mod_add] at hb hc
          refine ⟨i + 1, by omega, hb, hc, hfree, ?_⟩
          intro i1 hi1
          rcases Nat.eq_zero_or_pos i1 with rfl | hpos
          · rw [hk0]; exact ⟨c0, v, hc0, hv, h0⟩
          · obtain ⟨i2, rfl⟩ : ∃ i2, i1 = i2 + 1 := ⟨i1 - 1, by omega⟩
            rw [← succ_mod_add]; exact hocc i2 (by omega)
        · rename_i h0
          simp only [Except.ok.injEq, Prod.mk.injEq] at h
          obtain ⟨rfl, rfl⟩ := h
          refine ⟨0, by omega, by rw [hk0], by rw [hk0]; exact hc0, ⟨v, hv, by omega⟩, ?_⟩
          intro i1 hi1; omega

/-- When the counter of tests runs out, every counter tried hit an occupied slot. -/
theorem probe_diverges_inv {M : Nat} {t : List Int} {b : Backend} :
    ∀ (f k : Nat), k < U64 → probe M t { b with next := k } f = .error .diverges →
      ∀ i, i < f → occAt M t b ((k + i) % U64) := by
  intro f
  induction f with
  | zero => intro k _ _ i hi; omega
  | succ f ih =>
    intro k hk h i hi
    have hk0 : (k + 0) % U64 = k := by simpa using Nat.mod_eq_of_lt hk
    simp only [probe] at h
    split at h
    · rename_i e he
      simp only [getPermutation] at he
      split at he <;> simp at he
      simp only [Except.error.injEq] at h
      rw [h] at he; cases he
    · rename_i c0 hc0
      split at h
      · simp at h
      · rename_i v hv
        split at h
        · rename_i h0
          rcases Nat.eq_zero_or_pos i with rfl | hpos
          · rw [hk0]; exact ⟨c0, v, hc0, hv, h0⟩
          · obtain ⟨i2, rfl⟩ : ∃ i2, i = i2 + 1 := ⟨i - 1, by omega⟩
            rw [← succ_mod_add]
            exact ih _ (Nat.mod_lt _ (by unfold U64; norm_num)) h i2 (by omega)
        · simp at h

theorem U64_pos : 0 < U64 := by unfold U64; norm_num

/-- Without wrap-around `getPermutation` is `(offset + skip * next) mod M`. -/
theorem getPermutation_nowrap {M : Nat} (b : Backend) (k : Nat) (hM : 0 < M)
    (h : b.offset + b.skip * k < U64) :
    getPermutation M { b with next := k } = .ok ((b.offset + b.skip * k) % M) := by
  have h1 : b.skip * k % U64 = b.skip * k := Nat.mod_eq_of_lt (by omega)
  have h2 : (b.offset + b.skip * k) % U64 = b.offset + b.skip * k := Nat.mod_eq_of_lt h
  simp only [getPermutation, h1, h2]
  rw [if_neg (by omega)]

/-- Sizes below `2^32` leave no room for a wrap-around. -/
theorem nowrap_of_lt_U32 {M o s k : Nat} (hM : M ≤ U32) (ho : o < M) (hs : s < M) (hk : k < M) :
    o + s * k < U64 := by
  have h1 : s * k ≤ (M - 1) * (M - 1) := Nat.mul_le_mul (by omega) (by omega)
  have h2 : (M - 1) * (M - 1) + M ≤ U32 * U32 := by
    have : (M - 1) * (M - 1) + M ≤ M * M := by
      obtain ⟨m, rfl⟩ : ∃ m, M = m + 1 := ⟨M - 1, by omega⟩
      simp only [Nat.add_sub_cancel]
      nlinarith
    exact le_trans this (Nat.mul_le_mul hM hM)
  have h3 : U32 * U32 = U64 := by unfold U32 U64; norm_num
  omega

theorem slot_inj {M o s k1 k2 : Nat} (hcop : Nat.Coprime M s) (hk1 : k1 < M) (hk2 : k2 < M)
    (h : (o + s * k1) % M = (o + s * k2) % M) : k1 = k2 := by
  have h1 : s * k1 ≡ s * k2 [MOD M] := Nat.ModEq.add_left_cancel' o h
  have h2 : k1 ≡ k2 [MOD M] := Nat.ModEq.cancel_left_of_coprime hcop h1
  exact Nat.ModEq.eq_of_lt_of_lt h2 hk1 hk2

theorem coprime_of_prime {M s : Nat} (hM : Nat.Prime M) (hs1 : 1 ≤ s) (hs : s < M) :
    Nat.Coprime M s := by
  rw [Nat.Prime.coprime_iff_not_dvd hM]
  intro hd
  have := Nat.le_of_dvd (by omega) hd
  omega

theorem slot_surj {M o s : Nat} (hcop : Nat.Coprime M s) (hM : 0 < M) (c : Nat) (hc : c < M) :
    ∃ k, k < M ∧ (o + s * k) % M = c := by
  have himg : Finset.image (fun k => (o + s * k) % M) (Finset.range M) = Finset.range M := by
    apply Finset.eq_of_subset_of_card_le
    · intro x hx
      simp only [Finset.mem_image, Finset.mem_range] at hx
      obtain ⟨k, _, rfl⟩ := hx
      exact Finset.mem_range.mpr (Nat.mod_lt _ hM)
    · rw [Finset.card_image_of_injOn]
      intro a ha b hb hab
      simp only [Finset.coe_range, Set.mem_Iio] at ha hb
      exact slot_inj hcop ha hb hab
  have hmem : c ∈ Finset.image (fun k => (o + s * k) % M) (Finset.range M) := by
    rw [himg]; exact Finset.mem_range.mpr hc
  simp only [Finset.mem_image, Finset.mem_range] at hmem
  exact hmem

/-- The sequence `(o + s·k) mod M`, `k = 0, …, M-1`, is a permutation of `0, …, M-1`. -/
theorem slot_perm {M o s : Nat} (hcop : Nat.Coprime M s) (hM : 0 < M) :
    List.Perm ((List.range M).map (fun k => (o + s * k) % M)) (List.range M) := by
  rw [List.perm_ext_iff_of_nodup _ (List.nodup_range M)]
  · intro a
    simp only [List.mem_map, List.mem_range]
    constructor
    · rintro ⟨k, _, rfl⟩; exact Nat.mod_lt _ hM
    · intro ha; exact slot_surj hcop hM a ha
  · apply List.Nodup.map_on _ (List.nodup_range M)
    intro x hx y hy hxy
    exact slot_inj hcop (List.mem_range.mp hx) (List.mem_range.mp hy) hxy

/-! ## The outer loop, one iteration -/

theorem toInt_of_lt {n : Nat} (h : n < 2 ^ 63) : toInt n = (n : Int) := by
  have h1 : n % U64 = n := Nat.mod_eq_of_lt (by unfold U64; omega)
  simp only [toInt, h1, if_pos h]

theorem turns_succ (n N i : Nat) :
    turns (n + 1) N i = turns n N i + if n % N = i then 1 else 0 := by
  unfold turns
  rw [List.range_succ, List.filter_append, List.length_append]
  by_cases h : n % N = i <;> simp [h]

theorem turns_zero (N i : Nat) : turns 0 N i = 0 := by simp [turns]

/-- The index `j` and the backend the outer loop picks at iteration `n`. -/
theorem populateStep_pick {M : Nat} {bs : List Backend} {t : List Int} {n : Nat}
    (hn : n < 2 ^ 63) (hN : 0 < bs.length) :
    populateStep M bs t n =
      match probe M t (bs.get ⟨n % bs.length, Nat.mod_lt _ hN⟩) U64 with
      | .error e => .error e
      | .ok (c, b1) => .ok (t.set c b1.index) := by
  have hj : Int.tmod (toInt n) (bs.length : Int) = ((n % bs.length : Nat) : Int) := by
    rw [toInt_of_lt hn]; exact (Int.ofNat_tmod n bs.length).symm
  have hlt : n % bs.length < bs.length := Nat.mod_lt _ hN
  simp only [populateStep, hj]
  rw [if_neg (by omega)]
  simp only [Int.toNat_ofNat, List.getElem?_eq_getElem hlt, List.get_eq_getElem]

/-- In a table that still has an unassigned slot, the collision loop of a valid
backend exits after fewer than `M` increments, at an unassigned slot. -/
theorem probe_finds {M N n : Nat} {t : List Int} (b : Backend) (hM : Nat.Prime M)
    (hU : M ≤ U32) (ho : b.offset < M) (hs1 : 1 ≤ b.skip) (hs : b.skip < M)
    (hinv : Inv M N n t) (hn : n < M) :
    ∃ k, k < M ∧ t[(b.offset + b.skip * k) % M]? = some (-1) ∧
      (∀ k1, k1 < k → occAt M t b k1) ∧
      probe M t { b with next := 0 } U64
        = .ok ((b.offset + b.skip * k) % M, { b with next := k }) := by
  classical
  have hMpos : 0 < M := hM.pos
  have hMU : M < U64 := lt_of_le_of_lt hU (by unfold U32 U64; norm_num)
  -- some slot is unassigned
  have hex : ∃ c, c < M ∧ t[c]? = some (-1) := by
    by_contra hcon
    have hall : t.countP (fun v => decide (0 ≤ v)) = t.length := by
      rw [List.countP_eq_length]
      intro a ha
      obtain ⟨c, hc, rfl⟩ := List.getElem_of_mem ha
      have hget : t[c]? = some t[c] := List.getElem?_eq_getElem hc
      rcases hinv.vals c _ hget with h | h
      · exact absurd ⟨c, hinv.len ▸ hc, by rw [hget, h]⟩ hcon
      · simpa using h.1
    rw [hinv.filled, hinv.len] at hall
    omega
  have hcop := coprime_of_prime hM hs1 hs
  have hex2 : ∃ k, k < M ∧ t[(b.offset + b.skip * k) % M]? = some (-1) := by
    obtain ⟨c, hc, hfree⟩ := hex
    obtain ⟨k, hk, rfl⟩ := slot_surj (o := b.offset) hcop hMpos c hc
    exact ⟨k, hk, hfree⟩
  let k := Nat.find hex2
  have hk : k < M ∧ t[(b.offset + b.skip * k) % M]? = some (-1) := Nat.find_spec hex2
  have hmin : ∀ k1, k1 < k → occAt M t b k1 := by
    intro k1 hk1
    have hnot := Nat.find_min hex2 hk1
    have hk1M : k1 < M := lt_trans hk1 hk.1
    have hlt : (b.offset + b.skip * k1) % M < t.length := by
      rw [hinv.len]; exact Nat.mod_lt _ hMpos
    have hget := List.getElem?_eq_getElem hlt
    refine ⟨_, _, getPermutation_nowrap b k1 hMpos (nowrap_of_lt_U32 hU ho hs hk1M), hget, ?_⟩
    rcases hinv.vals _ _ hget with h | h
    · exact absurd ⟨hk1M, by rw [hget, h]⟩ hnot
    · exact h.1
  refine ⟨k, hk.1, hk.2, hmin, ?_⟩
  have hkU : (0 + k) % U64 = k := by
    rw [Nat.zero_add]; exact Nat.mod_eq_of_lt (lt_trans hk.1 hMU)
  have := probe_run (M := M) (t := t) (b := b) k U64 0 ((b.offset + b.skip * k) % M) (-1)
    (lt_trans hk.1 hMU) U64_pos
    (fun i1 hi1 => by
      have : (0 + i1) % U64 = i1 := by
        rw [Nat.zero_add]; exact Nat.mod_eq_of_lt (lt_trans (lt_trans hi1 hk.1) hMU)
      rw [this]; exact hmin i1 hi1)
    (by rw [hkU]; exact getPermutation_nowrap b k hMpos (nowrap_of_lt_U32 hU ho hs hk.1))
    hk.2 (by norm_num)
  rw [this, hkU]

/-- Writing the index of the backend whose turn it is into an unassigned slot
keeps the loop invariant. -/
theorem Inv.set {M N n : Nat} {t : List Int} (hinv : Inv M N n t) (hN : 0 < N) {c : Nat}
    (hfree : t[c]? = some (-1)) : Inv M N (n + 1) (t.set c ((n % N : Nat) : Int)) := by
  have hc : c < t.length := by
    by_contra h
    rw [List.getElem?_eq_none (by omega)] at hfree
    cases hfree
  have hval : t[c] = -1 := by
    rw [List.getElem?_eq_getElem hc] at hfree
    exact Option.some.inj hfree
  refine ⟨by rw [List.length_set]; exact hinv.len, ?_, ?_, ?_⟩
  · intro c1 v hv1
    rw [List.getElem?_set] at hv1
    by_cases hcc : c = c1
    · rw [if_pos hcc, if_pos hc] at hv1
      cases hv1
      right
      exact ⟨by omega, by exact_mod_cast Nat.mod_lt n hN⟩
    · rw [if_neg hcc] at hv1
      exact hinv.vals c1 v hv1
  · rw [List.countP_set _ _ _ _ hc, hinv.filled, hval]
    have h1 : (0 : Int) ≤ (n : Int) % (N : Int) := Int.emod_nonneg _ (by omega)
    simp [h1]
  · intro i
    rw [List.count_set _ _ _ _ hc, hinv.share, hval, turns_succ]
    have h1 : ((-1 : Int) == (i : Int)) = false := by
      rw [beq_eq_false_iff_ne]; omega
    rw [h1]
    by_cases h : n % N = i
    · simp [h]
    · have h2 : ((((n % N : Nat) : Int)) == (i : Int)) = false := by
        rw [beq_eq_false_iff_ne]; omega
      have h3 : ¬ (n : Int) % (N : Int) = (i : Int) := by exact_mod_cast h
      simp [h, h2, h3]

/-- One iteration of the outer loop on a table that satisfies the invariant. -/
theorem populateStep_inv {M n : Nat} {bs : List Backend} {t : List Int} (hM : Nat.Prime M)
    (hU : M ≤ U32) (hv : ValidBackends M bs) (hN : 0 < bs.length)
    (hinv : Inv M bs.length n t) (hn : n < M) :
    ∃ c, c < M ∧ t[c]? = some (-1) ∧
      populateStep M bs t n = .ok (t.set c ((n % bs.length : Nat) : Int)) ∧
      Inv M bs.length (n + 1) (t.set c ((n % bs.length : Nat) : Int)) := by
  have hlt : n % bs.length < bs.length := Nat.mod_lt _ hN
  obtain ⟨hidx, ho, hs1, hs, hnext⟩ := hv (n % bs.length) hlt
  have hn63 : n < 2 ^ 63 := by
    have : M ≤ 2 ^ 32 := hU
    omega
  obtain ⟨k, _, hfree, _, hprobe⟩ := probe_finds (bs.get ⟨n % bs.length, hlt⟩) hM hU ho hs1 hs hinv hn
  have hb : ({ bs.get ⟨n % bs.length, hlt⟩ with next := 0 } : Backend) = bs.get ⟨n % bs.length, hlt⟩ := by
    rw [← hnext]
  rw [hb] at hprobe
  refine ⟨_, Nat.mod_lt _ hM.pos, hfree, ?_, hinv.set hN hfree⟩
  rw [populateStep_pick hn63 hN, hprobe]
  simp only [hidx]

/-! ## The whole outer loop -/

theorem populate_append (M : Nat) (bs : List Backend) :
    ∀ (l1 l2 : List Nat) (t : List Int),
      populate M bs t (l1 ++ l2) =
        match populate M bs t l1 with
        | .error e => .error e
        | .ok t1 => populate M bs t1 l2 := by
  intro l1
  induction l1 with
  | nil => intro l2 t; rfl
  | cons n l1 ih =>
    intro l2 t
    simp only [List.cons_append, populate]
    cases populateStep M bs t n with
    | error e => rfl
    | ok t1 => exact ih l2 t1

theorem Inv.init (M N : Nat) : Inv M N 0 (List.replicate M (-1)) := by
  refine ⟨List.length_replicate _ _, ?_, ?_, ?_⟩
  · intro c v hv
    rw [List.getElem?_replicate] at hv
    split at hv
    · cases hv; left; rfl
    · cases hv
  · rw [List.countP_eq_zero]
    intro a ha
    rw [List.eq_of_mem_replicate ha]
    decide
  · intro i
    rw [turns_zero, List.count_eq_zero]
    intro hmem
    have := List.eq_of_mem_replicate hmem
    omega

/-- After the first `n ≤ M` iterations the loop has returned a table that
satisfies the invariant. -/
theorem populate_range {M : Nat} {bs : List Backend} (hM : Nat.Prime M) (hU : M ≤ U32)
    (hv : ValidBackends M bs) (hN : 0 < bs.length) :
    ∀ n, n ≤ M → ∃ t, populate M bs (List.replicate M (-1)) (List.range n) = .ok t ∧
      Inv M bs.length n t := by
  intro n
  induction n with
  | zero => intro _; exact ⟨_, rfl, Inv.init M bs.length⟩
  | succ n ih =>
    intro hn
    obtain ⟨t, ht, hinv⟩ := ih (by omega)
    obtain ⟨c, _, _, hstep, hinv1⟩ := populateStep_inv hM hU hv hN hinv (by omega)
    refine ⟨_, ?_, hinv1⟩
    rw [List.range_succ, populate_append, ht]
    simp only [populate, hstep]

/-- For a prime table size below `2^32` and a non-empty list of valid backends
`getLookupTable` returns a table that satisfies the invariant after `M` iterations. -/
theorem getLookupTable_inv {M : Nat} {bs : List Backend} (hM : Nat.Prime M) (hU : M ≤ U32)
    (hv : ValidBackends M bs) (hN : 0 < bs.length) :
    ∃ t, getLookupTable M bs M = .ok t ∧ Inv M bs.length M t := by
  obtain ⟨t, ht, hinv⟩ := populate_range hM hU hv hN M (le_refl M)
  refine ⟨t, ?_, hinv⟩
  have hM63 : ¬ 2 ^ 63 ≤ M := by
    have : M ≤ 2 ^ 32 := hU
    omega
  simp only [getLookupTable]
  rw [if_neg (by omega), if_neg hM63]
  exact ht

/-- A table that satisfies the invariant after `M` iterations has no unassigned slot. -/
theorem Inv.full {M N : Nat} {t : List Int} (hinv : Inv M N M t) (c : Nat) (hc : c < M) :
    ∃ v, t[c]? = some v ∧ 0 ≤ v ∧ v < (N : Int) := by
  have hlen := hinv.len
  have hall : ∀ a ∈ t, decide (0 ≤ a) = true := by
    rw [← List.countP_eq_length, hinv.filled, hlen]
  have hget : t[c]? = some t[c] := List.getElem?_eq_getElem (by omega)
  refine ⟨t[c], hget, ?_⟩
  have h0 : 0 ≤ t[c] := by simpa using hall _ (List.getElem_mem (by omega))
  rcases hinv.vals c _ hget with h | h
  · omega
  · exact h

/-! ## A prime table size above `2^32`: the collision loop does not exit -/

theorem powMod_eq (a m : Nat) : ∀ bits e, e < 2 ^ bits → powMod a m bits e = a ^ e % m := by
  intro bits
  induction bits with
  | zero =>
    intro e he
    have : e = 0 := by simpa using he
    subst this
    simp [powMod]
  | succ bits ih =>
    intro e he
    have hhalf : e / 2 < 2 ^ bits := by
      rw [Nat.div_lt_iff_lt_mul (by norm_num)]
      rw [pow_succ] at he
      exact he
    have hsq : a ^ (e / 2) % m * (a ^ (e / 2) % m) % m = a ^ (2 * (e / 2)) % m := by
      rw [← Nat.mul_mod, two_mul, pow_add]
    simp only [powMod, ih _ hhalf, hsq]
    split
    · rename_i h0
      have : 2 * (e / 2) = e := by omega
      rw [this]
    · rename_i h0
      have : e = 2 * (e / 2) + 1 := by omega
      conv_rhs => rw [this, pow_succ]
      rw [Nat.mul_mod, Nat.mod_mod, ← Nat.mul_mod]

theorem zmod_pow_eq (p a e r : Nat) (h : powMod a p 33 e = r) (he : e < 2 ^ 33) :
    ((a : ZMod p)) ^ e = (r : ZMod p) := by
  rw [powMod_eq a p 33 e he] at h
  rw [← h, ZMod.natCast_mod, Nat.cast_pow]

theorem zmod_natCast_ne_one (p r : Nat) (hr1 : r ≠ 1) (hr : r < p) (hp : 1 < p) :
    (r : ZMod p) ≠ 1 := by
  intro h
  have h1 : ((r : ℕ) : ZMod p) = ((1 : ℕ) : ZMod p) := by simpa using h
  rw [ZMod.natCast_eq_natCast_iff'] at h1
  rw [Nat.mod_eq_of_lt hr, Nat.mod_eq_of_lt hp] at h1
  exact hr1 h1

theorem three_pow_ne_one (e : Nat) (he : e < 2 ^ 33)
    (h1 : powMod 3 4294967311 33 e ≠ 1) (h2 : powMod 3 4294967311 33 e < 4294967311) :
    (3 : ZMod 4294967311) ^ e ≠ 1 := by
  have h := zmod_pow_eq 4294967311 3 e _ rfl he
  have h3 : ((3 : ℕ) : ZMod 4294967311) = 3 := by norm_num
  rw [h3] at h
  rw [h]
  exact zmod_natCast_ne_one _ _ h1 h2 (by norm_num)

theorem prime_factors_pred_wrapSize (q : Nat) (hq : q.Prime) (h : q ∣ 4294967310) :
    q = 2 ∨ q = 3 ∨ q = 5 ∨ q = 131 ∨ q = 364289 := by
  have e : 4294967310 = 2 * (3 * (3 * (5 * (131 * 364289)))) := by norm_num
  rw [e] at h
  have p2 : Nat.Prime 2 := by norm_num
  have p3 : Nat.Prime 3 := by norm_num
  have p5 : Nat.Prime 5 := by norm_num
  have p131 : Nat.Prime 131 := by norm_num
  have p364289 : Nat.Prime 364289 := by norm_num
  rcases (Nat.Prime.dvd_mul hq).mp h with h | h
  · left; exact (Nat.prime_dvd_prime_iff_eq hq p2).mp h
  rcases (Nat.Prime.dvd_mul hq).mp h with h | h
  · right; left; exact (Nat.prime_dvd_prime_iff_eq hq p3).mp h
  rcases (Nat.Prime.dvd_mul hq).mp h with h | h
  · right; left; exact (Nat.prime_dvd_prime_iff_eq hq p3).mp h
  rcases (Nat.Prime.dvd_mul hq).mp h with h | h
  · right; right; left; exact (Nat.prime_dvd_prime_iff_eq hq p5).mp h
  rcases (Nat.Prime.dvd_mul hq).mp h with h | h
  · right; right; right; left; exact (Nat.prime_dvd_prime_iff_eq hq p131).mp h
  · right; right; right; right; exact (Nat.prime_dvd_prime_iff_eq hq p364289).mp h

/-- The number `2^32 + 15` is prime (Lucas test with base 3). -/
theorem wrapSize_prime : Nat.Prime wrapSize := by
  unfold wrapSize
  apply lucas_primality 4294967311 (3 : ZMod 4294967311)
  · have := zmod_pow_eq 4294967311 3 4294967310 1 (by decide) (by norm_num)
    simpa using this
  · intro q hq hdvd
    have hdvd1 : q ∣ 4294967310 := by simpa using hdvd
    have e1 : (4294967311 - 1 : Nat) = 4294967310 := by norm_num
    rw [e1]
    rcases prime_factors_pred_wrapSize q hq hdvd1 with rfl | rfl | rfl | rfl | rfl
    · exact three_pow_ne_one _ (by norm_num) (by decide) (by decide)
    · exact three_pow_ne_one _ (by norm_num) (by decide) (by decide)
    · exact three_pow_ne_one _ (by norm_num) (by decide) (by decide)
    · exact three_pow_ne_one _ (by norm_num) (by decide) (by decide)
    · exact three_pow_ne_one _ (by norm_num) (by decide) (by decide)

/-- The slot the backend `wrapBackend` tries at counter `k`: `skip * k` wraps at
`2^64`, so the slot depends on `k mod 2^32` only. -/
theorem wrap_slot (k : Nat) :
    getPermutation wrapSize { wrapBackend with next := k }
      = .ok (4294967296 * (k % 4294967296) % wrapSize) := by
  have h1 : (0 + 4294967296 * k % U64) % U64 = 4294967296 * (k % 4294967296) := by
    unfold U64; omega
  simp only [getPermutation, wrapBackend, h1]
  rw [if_neg (by unfold wrapSize; norm_num)]

theorem wrap_slot_inj {k1 k2 : Nat} (hk1 : k1 < 4294967296) (hk2 : k2 < 4294967296)
    (h : 4294967296 * k1 % wrapSize = 4294967296 * k2 % wrapSize) : k1 = k2 := by
  have hcop : Nat.Coprime wrapSize 4294967296 := by unfold wrapSize; norm_num
  have h0 : (0 + 4294967296 * k1) % wrapSize = (0 + 4294967296 * k2) % wrapSize := by
    simpa using h
  exact slot_inj hcop (by unfold wrapSize; omega) (by unfold wrapSize; omega) h0

/-- Writing a backend index into a slot leaves every occupied slot occupied. -/
theorem occAt_set {M : Nat} {t : List Int} {b : Backend} {k : Nat} (c : Nat) {x : Int}
    (hx : 0 ≤ x) (h : occAt M t b k) : occAt M (t.set c x) b k := by
  obtain ⟨c1, v, hc1, hv, h0⟩ := h
  by_cases hcc : c = c1
  · subst hcc
    have hlt : c < t.length := by
      by_contra hnot
      rw [List.getElem?_eq_none (by omega)] at hv
      cases hv
    exact ⟨c, x, hc1, by rw [List.getElem?_set, if_pos rfl, if_pos hlt], hx⟩
  · exact ⟨c1, v, hc1, by rw [List.getElem?_set, if_neg hcc]; exact hv, h0⟩

theorem wrap_pick (n : Nat) (h : n % [wrapBackend].length < [wrapBackend].length) :
    [wrapBackend].get ⟨n % [wrapBackend].length, h⟩ = { wrapBackend with next := 0 } := by
  have h0 : n % [wrapBackend].length = 0 := Nat.mod_one n
  simp only [List.get_eq_getElem, h0]
  rfl

/-- While fewer than `2^32` slots are assigned, iteration `n` of the outer loop
assigns the slot of counter `n`; the assigned slots are those of the counters
below `n`. -/
theorem wrap_populate : ∀ n, n ≤ 4294967296 →
    ∃ t, populate wrapSize [wrapBackend] (List.replicate wrapSize (-1)) (List.range n) = .ok t ∧
      t.length = wrapSize ∧ (∀ k, k < n → occAt wrapSize t wrapBackend k) ∧
      (∀ (c : Nat) (v : Int), t[c]? = some v → 0 ≤ v →
        ∃ k, k < n ∧ 4294967296 * k % wrapSize = c) := by
  intro n
  induction n with
  | zero =>
    intro _
    refine ⟨_, rfl, List.length_replicate _ _, fun k hk => by omega, ?_⟩
    intro c v hv h0
    rw [List.getElem?_replicate] at hv
    split at hv
    · cases hv; omega
    · cases hv
  | succ n ih =>
    intro hn
    obtain ⟨t, ht, hlen, hocc, himg⟩ := ih (by omega)
    have hnU : n < U64 := by unfold U64; omega
    have hnmod : n % 4294967296 = n := Nat.mod_eq_of_lt (by omega)
    have hclt : 4294967296 * n % wrapSize < t.length := by
      rw [hlen]; exact Nat.mod_lt _ (by unfold wrapSize; norm_num)
    have hget := List.getElem?_eq_getElem hclt
    have hfree : t[4294967296 * n % wrapSize] < 0 := by
      by_contra hnot
      obtain ⟨k, hk, hkc⟩ := himg _ _ hget (by omega)
      have := wrap_slot_inj (by omega) (by omega) hkc
      omega
    have hzero : (0 + n) % U64 = n := by rw [Nat.zero_add]; exact Nat.mod_eq_of_lt hnU
    have hprobe := probe_run (M := wrapSize) (t := t) (b := wrapBackend) n U64 0
      (4294967296 * n % wrapSize) _ hnU U64_pos
      (fun i1 hi1 => by
        have : (0 + i1) % U64 = i1 := by
          rw [Nat.zero_add]; exact Nat.mod_eq_of_lt (by omega)
        rw [this]; exact hocc i1 hi1)
      (by rw [hzero, wrap_slot, hnmod]) hget hfree
    rw [hzero] at hprobe
    have hstep : populateStep wrapSize [wrapBackend] t n
        = .ok (t.set (4294967296 * n % wrapSize) 0) := by
      rw [populateStep_pick (by omega) (by simp), wrap_pick, hprobe]
      rfl
    refine ⟨t.set (4294967296 * n % wrapSize) 0, ?_, by rw [List.length_set]; exact hlen, ?_, ?_⟩
    · rw [List.range_succ, populate_append, ht]
      simp only [populate, hstep]
    · intro k hk
      rcases Nat.lt_or_ge k n with hlt | hge
      · exact occAt_set _ (le_refl 0) (hocc k hlt)
      · have hkn : k = n := by omega
        subst hkn
        exact ⟨_, 0, by rw [wrap_slot, hnmod],
          by rw [List.getElem?_set, if_pos rfl, if_pos hclt], le_refl 0⟩
    · intro c v hv h0
      rw [List.getElem?_set] at hv
      by_cases hcc : 4294967296 * n % wrapSize = c
      · exact ⟨n, by omega, hcc⟩
      · rw [if_neg hcc] at hv
        obtain ⟨k, hk, hkc⟩ := himg c v hv h0
        exact ⟨k, by omega, hkc⟩

/-- For the prime table size `2^32 + 15` and the single backend with skip `2^32`,
the collision loop of iteration `n = 2^32` never exits. -/
theorem wrap_diverges : getLookupTable wrapSize [wrapBackend] wrapSize = .error .diverges := by
  obtain ⟨t, ht, _, hocc, _⟩ := wrap_populate 4294967296 (le_refl _)
  have hall : ∀ i, i < U64 → occAt wrapSize t wrapBackend ((0 + i) % U64) := by
    intro i _
    have h1 := hocc ((0 + i) % U64 % 4294967296) (Nat.mod_lt _ (by norm_num))
    obtain ⟨c, v, hc, hv, h0⟩ := h1
    refine ⟨c, v, ?_, hv, h0⟩
    rw [wrap_slot] at hc ⊢
    rw [Nat.mod_mod] at hc
    exact hc
  have hprobe := probe_all_occ (M := wrapSize) (t := t) (b := wrapBackend) U64 0 U64_pos hall
  have hstep : populateStep wrapSize [wrapBackend] t 4294967296 = .error .diverges := by
    rw [populateStep_pick (by norm_num) (by simp), wrap_pick, hprobe]
  have hrange : List.range wrapSize
      = List.range 4294967296 ++ 4294967296 :: List.map (fun x => 4294967296 + x)
          (List.map Nat.succ (List.range 14)) := by
    have e : wrapSize = 4294967296 + (14 + 1) := by unfold wrapSize; norm_num
    rw [e, List.range_add, List.range_succ_eq_map]
    rfl
  simp only [getLookupTable]
  rw [if_neg (by simp), if_neg (by unfold wrapSize; norm_num), hrange, populate_append, ht]
  simp only [populate, hstep]

/-! ## Full coverage (C1) -/

/-- In a table that satisfies the invariant after `M` iterations every slot holds
the index of a backend. -/
theorem Inv.mem_range {M N : Nat} {t : List Int} (hinv : Inv M N M t) :
    ∀ v ∈ t, 0 ≤ v ∧ v < (N : Int) := by
  intro v hvmem
  obtain ⟨c, hc, rfl⟩ := List.getElem_of_mem hvmem
  obtain ⟨w, hw, h0, h1⟩ := hinv.full c (hinv.len ▸ hc)
  rw [List.getElem?_eq_getElem hc] at hw
  cases hw
  exact ⟨h0, h1⟩

/-- C1, as amended: for every prime table size `M` below `2^32` and every non-empty
list of valid backends (backend `i` has index `i`, `0 ≤ offset < M`,
`1 ≤ skip < M`, `next = 0`), `getLookupTable` returns a table of length exactly
`M` in which every slot holds a value in `[0, N)` and no slot is `-1`; for
`N = 1` every slot is `0`. -/
theorem getLookupTable_full_coverage (M : Nat) (backends : List Backend)
    (hM : Nat.Prime M) (hU : M < U32) (hne : backends ≠ [])
    (hv : ValidBackends M backends) :
    ∃ t, getLookupTable M backends M = .ok t ∧ t.length = M ∧
      (∀ v ∈ t, 0 ≤ v ∧ v < (backends.length : Int)) ∧ (∀ v ∈ t, v ≠ -1) ∧
      (backends.length = 1 → t = List.replicate M 0) := by
  have hN : 0 < backends.length := List.length_pos.mpr hne
  obtain ⟨t, ht, hinv⟩ := getLookupTable_inv hM (le_of_lt hU) hv hN
  have hrange := hinv.mem_range
  refine ⟨t, ht, hinv.len, hrange, ?_, ?_⟩
  · intro v hvmem
    have := (hrange v hvmem).1
    omega
  · intro h1
    rw [List.eq_replicate_iff]
    refine ⟨hinv.len, ?_⟩
    intro v hvmem
    have := hrange v hvmem
    rw [h1] at this
    omega

/-- Scenario S1 on the model: one backend, table size 16381. -/
theorem getLookupTable_full_coverage_witness :
    ∃ t, getLookupTable 16381 [⟨⟨[]⟩, 0, 7, 3, 0⟩] 16381 = .ok t ∧ t.length = 16381 ∧
      (∀ v ∈ t, 0 ≤ v ∧ v < (([⟨⟨[]⟩, 0, 7, 3, 0⟩] : List Backend).length : Int)) ∧
      (∀ v ∈ t, v ≠ -1) ∧
      (([⟨⟨[]⟩, 0, 7, 3, 0⟩] : List Backend).length = 1 → t = List.replicate 16381 0) :=
  getLookupTable_full_coverage 16381 [⟨⟨[]⟩, 0, 7, 3, 0⟩] (by norm_num) (by decide)
    (by simp) (by decide)

/-- C1 as stated fails: `2^32 + 15` is a prime table size, the single backend with
index 0, offset 0, skip `2^32` and `next = 0` is valid for it, and
`getLookupTable` returns no table: `skip * next` wraps at `2^64`, the backend
reaches `2^32` slots only, and the collision loop of iteration `2^32` never exits. -/
theorem getLookupTable_full_coverage_counterexample :
    Nat.Prime wrapSize ∧ [wrapBackend] ≠ [] ∧ ValidBackends wrapSize [wrapBackend] ∧
      getLookupTable wrapSize [wrapBackend] wrapSize = .error .diverges :=
  ⟨wrapSize_prime, by simp, by decide, wrap_diverges⟩

/-! ## Removing a backend (C3) -/

theorem reindex_length : ∀ (l : List Backend) (i : Nat), (reindex i l).length = l.length := by
  intro l
  induction l with
  | nil => intro i; rfl
  | cons b l ih => intro i; simp [reindex, ih]

theorem reindex_get (M : Nat) : ∀ (l : List Backend) (i : Nat),
    (∀ b ∈ l, b.offset < M ∧ 1 ≤ b.skip ∧ b.skip < M ∧ b.next = 0) →
    ∀ j, ∀ h : j < (reindex i l).length,
      ((reindex i l).get ⟨j, h⟩).index = ((i + j : Nat) : Int) ∧
        ((reindex i l).get ⟨j, h⟩).offset < M ∧ 1 ≤ ((reindex i l).get ⟨j, h⟩).skip ∧
        ((reindex i l).get ⟨j, h⟩).skip < M ∧ ((reindex i l).get ⟨j, h⟩).next = 0 := by
  intro l
  induction l with
  | nil => intro i _ j h; simp [reindex] at h
  | cons b l ih =>
    intro i hall j h
    cases j with
    | zero =>
      have hb := hall b (List.mem_cons_self _ _)
      simpa [reindex] using hb
    | succ j =>
      have h1 : j < (reindex (i + 1) l).length := by
        simpa [reindex] using h
      have := ih (i + 1) (fun b1 hb1 => hall b1 (List.mem_cons_of_mem _ hb1)) j h1
      have e : i + 1 + j = i + (j + 1) := by omega
      rw [e] at this
      simpa [reindex] using this

theorem ValidBackends.mem {M : Nat} {bs : List Backend} (hv : ValidBackends M bs) :
    ∀ b ∈ bs, b.offset < M ∧ 1 ≤ b.skip ∧ b.skip < M ∧ b.next = 0 := by
  intro b hb
  obtain ⟨i, hi, rfl⟩ := List.getElem_of_mem hb
  have := hv i hi
  simp only [List.get_eq_getElem] at this
  exact this.2

/-- The list rebuilt after a removal is a list of valid backends again. -/
theorem removeAndReindex_valid {M : Nat} {bs : List Backend} (p : Nat)
    (hv : ValidBackends M bs) : ValidBackends M (removeAndReindex p bs) := by
  intro j h
  have hall : ∀ b ∈ bs.eraseIdx p, b.offset < M ∧ 1 ≤ b.skip ∧ b.skip < M ∧ b.next = 0 :=
    fun b hb => hv.mem b ((List.eraseIdx_sublist bs p).subset hb)
  have := reindex_get M (bs.eraseIdx p) 0 hall j h
  rw [Nat.zero_add] at this
  exact this

theorem removeAndReindex_length {bs : List Backend} {p : Nat} (hp : p < bs.length) :
    (removeAndReindex p bs).length = bs.length - 1 := by
  unfold removeAndReindex
  rw [reindex_length, List.length_eraseIdx, if_pos hp]

theorem diffCount_le (t1 t2 : List Int) : diffCount t1 t2 ≤ t1.length := by
  unfold diffCount
  refine le_trans (List.length_filter_le _ _) ?_
  rw [List.length_zip]
  exact Nat.min_le_left _ _

/-- Every slot of the first table that holds a value absent from the second one
is a slot in which the tables differ. -/
theorem count_le_diffCount (a : Int) : ∀ (t1 t2 : List Int), t1.length = t2.length →
    a ∉ t2 → t1.count a ≤ diffCount t1 t2 := by
  intro t1
  induction t1 with
  | nil => intro t2 _ _; simp
  | cons x t1 ih =>
    intro t2 hlen hnot
    cases t2 with
    | nil => simp at hlen
    | cons y t2 =>
      have hy : a ≠ y := fun h => hnot (by rw [h]; exact List.mem_cons_self _ _)
      have hrec := ih t2 (by simpa using hlen) (fun h => hnot (List.mem_cons_of_mem _ h))
      unfold diffCount at hrec ⊢
      rw [List.count_cons, List.zip_cons_cons, List.filter_cons]
      by_cases hxa : x = a
      · subst hxa
        have : decide ((x, y).1 ≠ (x, y).2) = true := by simpa using hy
        rw [if_pos this]
        simp only [List.length_cons, beq_self_eq_true, if_true]
        omega
      · have hb : (x == a) = false := by rw [beq_eq_false_iff_ne]; exact hxa
        rw [hb]
        simp only [Bool.false_eq_true, if_false, Nat.add_zero]
        split
        · simp only [List.length_cons]; omega
        · exact hrec

/-- C3, as amended: for every prime `M` below `2^32` and every list of `N ≥ 2` valid
backends, `getLookupTable` builds a table `T` for the list and a table `T1` for
the list with the backend at position `p` removed and the rest re-indexed
`0..N-2`; both have length `M`, `T1` holds values in `[0, N-1)` only, and the
number of slots in which they differ is at most `M` and at least the number of
slots `T` gives to index `N-1` (for `N = 2` the bound `M` is `⌈M/(N-1)⌉`). -/
theorem getLookupTable_removal (M p : Nat) (backends : List Backend)
    (hM : Nat.Prime M) (hU : M < U32) (hN : 2 ≤ backends.length) (hp : p < backends.length)
    (hv : ValidBackends M backends) :
    ∃ T T1, getLookupTable M backends M = .ok T ∧
      getLookupTable M (removeAndReindex p backends) M = .ok T1 ∧
      T.length = M ∧ T1.length = M ∧
      (∀ v ∈ T1, 0 ≤ v ∧ v < ((backends.length - 1 : Nat) : Int)) ∧
      diffCount T T1 ≤ M ∧
      T.count ((backends.length - 1 : Nat) : Int) ≤ diffCount T T1 ∧
      (backends.length = 2 → diffCount T T1 ≤ ceilDiv M (backends.length - 1)) := by
  have hne : backends ≠ [] := by
    intro h; rw [h] at hN; simp at hN
  have hlen1 : (removeAndReindex p backends).length = backends.length - 1 :=
    removeAndReindex_length hp
  have hne1 : removeAndReindex p backends ≠ [] := by
    intro h; rw [h] at hlen1; simp at hlen1; omega
  obtain ⟨T, hT, hTinv⟩ := getLookupTable_inv hM (le_of_lt hU) hv (List.length_pos.mpr hne)
  obtain ⟨T1, hT1, hT1inv⟩ := getLookupTable_inv hM (le_of_lt hU)
    (removeAndReindex_valid p hv) (List.length_pos.mpr hne1)
  have hTlen := hTinv.len
  have hT1len := hT1inv.len
  have hT1range := hT1inv.mem_range
  rw [hlen1] at hT1range
  have hle : diffCount T T1 ≤ M := hTlen ▸ diffCount_le T T1
  refine ⟨T, T1, hT, hT1, hTlen, hT1len, hT1range, hle, ?_, ?_⟩
  · apply count_le_diffCount _ T T1 (by rw [hTlen, hT1len])
    intro hmem
    have := (hT1range _ hmem).2
    omega
  · intro h2
    rw [h2]
    simpa [ceilDiv] using hle

/-- The amended C3 at table size 5 with three backends, the first one removed. -/
theorem getLookupTable_removal_witness :
    ∃ T T1, getLookupTable 5 [⟨⟨[]⟩, 0, 4, 1, 0⟩, ⟨⟨[]⟩, 1, 3, 2, 0⟩, ⟨⟨[]⟩, 2, 4, 1, 0⟩] 5 = .ok T ∧
      getLookupTable 5
        (removeAndReindex 0 [⟨⟨[]⟩, 0, 4, 1, 0⟩, ⟨⟨[]⟩, 1, 3, 2, 0⟩, ⟨⟨[]⟩, 2, 4, 1, 0⟩]) 5 = .ok T1 ∧
      T.length = 5 ∧ T1.length = 5 ∧
      (∀ v ∈ T1, 0 ≤ v ∧ v < (((([⟨⟨[]⟩, 0, 4, 1, 0⟩, ⟨⟨[]⟩, 1, 3, 2, 0⟩, ⟨⟨[]⟩, 2, 4, 1, 0⟩] :
        List Backend).length - 1 : Nat)) : Int)) ∧
      diffCount T T1 ≤ 5 ∧
      T.count (((([⟨⟨[]⟩, 0, 4, 1, 0⟩, ⟨⟨[]⟩, 1, 3, 2, 0⟩, ⟨⟨[]⟩, 2, 4, 1, 0⟩] :
        List Backend).length - 1 : Nat)) : Int) ≤ diffCount T T1 ∧
      (([⟨⟨[]⟩, 0, 4, 1, 0⟩, ⟨⟨[]⟩, 1, 3, 2, 0⟩, ⟨⟨[]⟩, 2, 4, 1, 0⟩] : List Backend).length = 2 →
        diffCount T T1 ≤ ceilDiv 5
          (([⟨⟨[]⟩, 0, 4, 1, 0⟩, ⟨⟨[]⟩, 1, 3, 2, 0⟩, ⟨⟨[]⟩, 2, 4, 1, 0⟩] : List Backend).length - 1)) :=
  getLookupTable_removal 5 0 [⟨⟨[]⟩, 0, 4, 1, 0⟩, ⟨⟨[]⟩, 1, 3, 2, 0⟩, ⟨⟨[]⟩, 2, 4, 1, 0⟩]
    (by norm_num) (by decide) (by decide) (by decide) (by decide)

/-- C3 as stated fails: with `M = 5` and the three valid backends
(offset, skip) = (4,1), (3,2), (4,1), the table is `[2,0,1,1,0]`; after the
backend at position 0 is removed and the other two are re-indexed it is
`[0,1,0,0,1]`. All 5 slots differ, more than `⌈5/2⌉ = 3`. -/
theorem getLookupTable_removal_counterexample :
    Nat.Prime 5 ∧
      ValidBackends 5 [⟨⟨[]⟩, 0, 4, 1, 0⟩, ⟨⟨[]⟩, 1, 3, 2, 0⟩, ⟨⟨[]⟩, 2, 4, 1, 0⟩] ∧
      getLookupTable 5 [⟨⟨[]⟩, 0, 4, 1, 0⟩, ⟨⟨[]⟩, 1, 3, 2, 0⟩, ⟨⟨[]⟩, 2, 4, 1, 0⟩] 5
        = .ok [2, 0, 1, 1, 0] ∧
      removeAndReindex 0 [⟨⟨[]⟩, 0, 4, 1, 0⟩, ⟨⟨[]⟩, 1, 3, 2, 0⟩, ⟨⟨[]⟩, 2, 4, 1, 0⟩]
        = [⟨⟨[]⟩, 0, 3, 2, 0⟩, ⟨⟨[]⟩, 1, 4, 1, 0⟩] ∧
      getLookupTable 5 [⟨⟨[]⟩, 0, 3, 2, 0⟩, ⟨⟨[]⟩, 1, 4, 1, 0⟩] 5 = .ok [0, 1, 0, 0, 1] ∧
      diffCount [2, 0, 1, 1, 0] [0, 1, 0, 0, 1] = 5 ∧ ceilDiv 5 (3 - 1) = 3 ∧
      ¬ diffCount [2, 0, 1, 1, 0] [0, 1, 0, 0, 1] ≤ ceilDiv 5 (3 - 1) :=
  ⟨by norm_num, by decide, by decide, by decide, by decide, by decide, by decide, by decide⟩

/-! ## The share of each backend (C4) -/

theorem turns_eq_count {N i : Nat} (hi : i < N) :
    ∀ M, turns M N i = Nat.count (fun n => n ≡ i [MOD N]) M := by
  intro M
  induction M with
  | zero => simp [turns]
  | succ M ih =>
    rw [turns_succ, Nat.count_succ, ih]
    have : (M % N = i) ↔ (M ≡ i [MOD N]) := by
      unfold Nat.ModEq
      rw [Nat.mod_eq_of_lt hi]
    by_cases h : M % N = i
    · rw [if_pos h, if_pos (this.mp h)]
    · rw [if_neg h, if_neg (fun h1 => h (this.mpr h1))]

/-- The number of turns of backend `i < N` among the first `M` iterations. -/
theorem turns_eq {N i : Nat} (hi : i < N) (M : Nat) :
    turns M N i = M / N + if i < M % N then 1 else 0 := by
  rw [turns_eq_count hi, Nat.count_modEq_card M (by omega) i, Nat.mod_eq_of_lt hi]

theorem sum_turns (N : Nat) (hN : 0 < N) :
    ∀ M, ∑ i ∈ Finset.range N, turns M N i = M := by
  intro M
  induction M with
  | zero => simp [turns_zero]
  | succ M ih =>
    simp only [turns_succ]
    rw [Finset.sum_add_distrib, ih, Finset.sum_ite_eq]
    rw [if_pos (Finset.mem_range.mpr (Nat.mod_lt M hN))]

theorem div_le_ceilDiv (a b : Nat) (hb : 0 < b) : a / b ≤ ceilDiv a b := by
  unfold ceilDiv
  exact Nat.div_le_div_right (by omega)

/-- For a prime size below `2^32` the table `getLookupTable` returns holds index
`i` exactly as many times as backend `i` had its turn. -/
theorem getLookupTable_share {M : Nat} {backends : List Backend}
    (hM : Nat.Prime M) (hU : M < U32) (hne : backends ≠ [])
    (hv : ValidBackends M backends) :
    ∃ t, getLookupTable M backends M = .ok t ∧
      ∀ i : Nat, t.count (i : Int) = turns M backends.length i := by
  obtain ⟨t, ht, hinv⟩ := getLookupTable_inv hM (le_of_lt hU) hv (List.length_pos.mpr hne)
  exact ⟨t, ht, hinv.share⟩

/-- C4: with `M = 16381` and every list of `1 ≤ N ≤ 1000` valid backends, the
table `getLookupTable` returns gives each backend `i < N` a number of slots in
`[⌊M/N⌋, ⌈M/N⌉ + 1]`, the counts over all backends sum to `M`, and for `N = 2`
the counts of 0 and 1 differ by at most 1. -/
theorem getLookupTable_fair_share (backends : List Backend)
    (hN1 : 1 ≤ backends.length) (hN : backends.length ≤ 1000)
    (hv : ValidBackends DefaultTableSize backends) :
    ∃ t, getLookupTable DefaultTableSize backends DefaultTableSize = .ok t ∧
      (∀ i : Nat, i < backends.length →
        DefaultTableSize / backends.length ≤ t.count (i : Int) ∧
        t.count (i : Int) ≤ ceilDiv DefaultTableSize backends.length + 1) ∧
      (∑ i ∈ Finset.range backends.length, t.count (i : Int)) = DefaultTableSize ∧
      (backends.length = 2 →
        t.count 0 ≤ t.count 1 + 1 ∧ t.count 1 ≤ t.count 0 + 1) := by
  have hM : Nat.Prime DefaultTableSize := by unfold DefaultTableSize; norm_num
  have hU : DefaultTableSize < U32 := by decide
  have hne : backends ≠ [] := List.length_pos.mp (by omega)
  obtain ⟨t, ht, hshare⟩ := getLookupTable_share hM hU hne hv
  refine ⟨t, ht, ?_, ?_, ?_⟩
  · intro i hi
    rw [hshare i, turns_eq hi]
    have := div_le_ceilDiv DefaultTableSize backends.length (by omega)
    constructor
    · omega
    · split <;> omega
  · simp only [hshare]
    exact sum_turns _ (by omega) _
  · intro h2
    have h0 := hshare 0
    have h1 := hshare 1
    rw [turns_eq (by omega)] at h0 h1
    simp only [Nat.cast_zero, Nat.cast_one] at h0 h1
    rw [h0, h1, h2]
    decide

/-- Scenario S2 on the model: two backends, table size 16381. -/
theorem getLookupTable_fair_share_witness :
    ∃ t, getLookupTable DefaultTableSize [⟨⟨[]⟩, 0, 7, 3, 0⟩, ⟨⟨[]⟩, 1, 12, 5, 0⟩]
        DefaultTableSize = .ok t ∧
      (∀ i : Nat, i < ([⟨⟨[]⟩, 0, 7, 3, 0⟩, ⟨⟨[]⟩, 1, 12, 5, 0⟩] : List Backend).length →
        DefaultTableSize / ([⟨⟨[]⟩, 0, 7, 3, 0⟩, ⟨⟨[]⟩, 1, 12, 5, 0⟩] : List Backend).length
          ≤ t.count (i : Int) ∧
        t.count (i : Int) ≤
          ceilDiv DefaultTableSize
            ([⟨⟨[]⟩, 0, 7, 3, 0⟩, ⟨⟨[]⟩, 1, 12, 5, 0⟩] : List Backend).length + 1) ∧
      (∑ i ∈ Finset.range ([⟨⟨[]⟩, 0, 7, 3, 0⟩, ⟨⟨[]⟩, 1, 12, 5, 0⟩] : List Backend).length,
        t.count (i : Int)) = DefaultTableSize ∧
      (([⟨⟨[]⟩, 0, 7, 3, 0⟩, ⟨⟨[]⟩, 1, 12, 5, 0⟩] : List Backend).length = 2 →
        t.count 0 ≤ t.count 1 + 1 ∧ t.count 1 ≤ t.count 0 + 1) :=
  getLookupTable_fair_share [⟨⟨[]⟩, 0, 7, 3, 0⟩, ⟨⟨[]⟩, 1, 12, 5, 0⟩] (by decide) (by decide)
    (by decide)

/-! ## The seeder and the permutation (C7, C8) -/

theorem offsetAndSkipOfWords_eq {h1 h2 m : Nat} (hm : 2 ≤ m) (hmU : m < U64) :
    offsetAndSkipOfWords h1 h2 m = .ok (h1 % m, h2 % (m - 1) + 1) := by
  have e1 : (m + U64 - 1) % U64 = m - 1 := by
    have : m + U64 - 1 = (m - 1) + U64 := by omega
    rw [this, Nat.add_mod_right]
    exact Nat.mod_eq_of_lt (by omega)
  have hlt : h2 % (m - 1) < m - 1 := Nat.mod_lt _ (by omega)
  have e2 : (h2 % (m - 1) + 1) % U64 = h2 % (m - 1) + 1 := Nat.mod_eq_of_lt (by omega)
  simp only [offsetAndSkipOfWords, e1, e2]
  rw [if_neg (by omega), if_neg (by omega)]

/-- C7: for every pair of 64-bit hash words `(h1, h2)` returned by `Hash128` and every
table size `m ≥ 2` (a `uint64`), `getOffsetAndSkip` returns `offset = h1 mod m` and
`skip = (h2 mod (m-1)) + 1`, the 64-bit operations not wrapping, so that
`0 ≤ offset < m` and `1 ≤ skip < m`. -/
theorem getOffsetAndSkip_range (hash128 : List UInt8 → Nat → Nat × Nat) (seedMurmur : Nat)
    (address : List UInt8) (h1 h2 m : Nat) (hh : hash128 address seedMurmur = (h1, h2))
    (hw1 : h1 < U64) (hw2 : h2 < U64) (hm : 2 ≤ m) (hmU : m < U64) :
    getOffsetAndSkip hash128 seedMurmur address m = .ok (h1 % m, h2 % (m - 1) + 1) ∧
      h1 % m < m ∧ 1 ≤ h2 % (m - 1) + 1 ∧ h2 % (m - 1) + 1 < m := by
  have hlt : h2 % (m - 1) < m - 1 := Nat.mod_lt _ (by omega)
  refine ⟨?_, Nat.mod_lt _ (by omega), by omega, by omega⟩
  simp only [getOffsetAndSkip, hh, Nat.mod_eq_of_lt hw1, Nat.mod_eq_of_lt hw2]
  exact offsetAndSkipOfWords_eq hm hmU

/-- C7 at the default table size, for a hash that returns the words 123456789 and 987654321. -/
theorem getOffsetAndSkip_range_witness :
    getOffsetAndSkip (fun _ _ => (123456789, 987654321)) 616034178 [49, 48] 16381
        = .ok (123456789 % 16381, 987654321 % (16381 - 1) + 1) ∧
      123456789 % 16381 < 16381 ∧ 1 ≤ 987654321 % (16381 - 1) + 1 ∧
      987654321 % (16381 - 1) + 1 < 16381 :=
  getOffsetAndSkip_range (fun _ _ => (123456789, 987654321)) 616034178 [49, 48]
    123456789 987654321 16381 rfl (by decide) (by decide) (by decide) (by decide)

/-- What `getOffsetAndSkip` can return for a table size `M ≥ 2`. -/
theorem getOffsetAndSkip_ok {hash128 : List UInt8 → Nat → Nat × Nat} {seedMurmur : Nat}
    {address : List UInt8} {M o s : Nat} (hM : 2 ≤ M) (hMU : M < U64)
    (h : getOffsetAndSkip hash128 seedMurmur address M = .ok (o, s)) :
    o < M ∧ 1 ≤ s ∧ s < M := by
  simp only [getOffsetAndSkip] at h
  rw [offsetAndSkipOfWords_eq hM hMU] at h
  simp only [Except.ok.injEq, Prod.mk.injEq] at h
  obtain ⟨rfl, rfl⟩ := h
  have hlt : ∀ x, x % (M - 1) < M - 1 := fun x => Nat.mod_lt _ (by omega)
  have := hlt ((hash128 address seedMurmur).2 % U64)
  exact ⟨Nat.mod_lt _ (by omega), by omega, by omega⟩

/-- C8: for `M = 16381`, and for every prime `M` (a `uint64`) for which
`offset + skip * k` stays below `2^64`, and every `(offset, skip)` that
`getOffsetAndSkip` can return for `M`, the values of `getPermutation` for
`next = 0, …, M-1` are a permutation of the slots `0, …, M-1`: every slot is
visited exactly once. -/
theorem getPermutation_perm (hash128 : List UInt8 → Nat → Nat × Nat) (seedMurmur : Nat)
    (address : List UInt8) (M o s : Nat) (ep : Endpoint) (index : Int)
    (hM : Nat.Prime M) (hMU : M < U64)
    (hos : getOffsetAndSkip hash128 seedMurmur address M = .ok (o, s))
    (hsmall : M = DefaultTableSize ∨ ∀ k, k < M → o + s * k < U64) :
    List.Perm ((List.range M).map (fun k => getPermutation M ⟨ep, index, o, s, k⟩))
      ((List.range M).map Except.ok) := by
  obtain ⟨ho, hs1, hs⟩ := getOffsetAndSkip_ok hM.two_le hMU hos
  have hnowrap : ∀ k, k < M → o + s * k < U64 := by
    rcases hsmall with h | h
    · intro k hk
      exact nowrap_of_lt_U32 (by rw [h]; decide) ho hs hk
    · exact h
  have hmap : (List.range M).map (fun k => getPermutation M ⟨ep, index, o, s, k⟩)
      = ((List.range M).map (fun k => (o + s * k) % M)).map Except.ok := by
    rw [List.map_map]
    apply List.map_congr_left
    intro k hk
    exact getPermutation_nowrap ⟨ep, index, o, s, 0⟩ k hM.pos (hnowrap k (List.mem_range.mp hk))
  rw [hmap]
  exact (slot_perm (coprime_of_prime hM hs1 hs) hM.pos).map _

/-- C8 at the default table size, for a hash that returns the words 123456789 and 987654321. -/
theorem getPermutation_perm_witness :
    List.Perm
      ((List.range 16381).map (fun k => getPermutation 16381 ⟨⟨[49, 48]⟩, 0, 9573, 5842, k⟩))
      ((List.range 16381).map Except.ok) :=
  getPermutation_perm (fun _ _ => (123456789, 987654321)) 616034178 [49, 48] 16381 9573 5842
    ⟨[49, 48]⟩ 0 (by norm_num) (by decide) (by rfl) (Or.inl rfl)

/-! ## The counter kept by reference (C10) -/

theorem ValidBackends.index_nonneg {M : Nat} {bs : List Backend} (hv : ValidBackends M bs) :
    ∀ b ∈ bs, 0 ≤ b.index := by
  intro b hb
  obtain ⟨i, hi, rfl⟩ := List.getElem_of_mem hb
  have := (hv i hi).1
  simp only [List.get_eq_getElem] at this
  rw [this]
  omega

/-- The backends `CreateLB` builds have their positions as indices, none negative,
and `next = 0`. -/
theorem buildBackends_index (hash128 : List UInt8 → Nat → Nat × Nat) (seedMurmur M : Nat) :
    ∀ (eps : List Endpoint) (i : Nat) (bs : List Backend),
      buildBackends hash128 seedMurmur M i eps = .ok bs →
      ∀ b ∈ bs, 0 ≤ b.index ∧ b.next = 0 := by
  intro eps
  induction eps with
  | nil =>
    intro i bs h b hb
    simp only [buildBackends, Except.ok.injEq] at h
    rw [← h] at hb
    simp at hb
  | cons ep eps ih =>
    intro i bs h b hb
    simp only [buildBackends] at h
    split at h
    · simp at h
    · split at h
      · simp at h
      · rename_i rest hrest
        simp only [Except.ok.injEq] at h
        rw [← h] at hb
        rcases List.mem_cons.mp hb with rfl | hmem
        · exact ⟨by simp, rfl⟩
        · exact ih (i + 1) rest hrest b hmem

/-! ## The outer key and the publisher (C5, C6) -/

/-- The key is the name cut at 192 bytes, followed by zeros up to 192 bytes. -/
theorem maglevKey_eq (name : List UInt8) :
    maglevKey name = name.take 192 ++ List.replicate (192 - name.length) 0 := by
  unfold maglevKey goCopy ClusterNameMaxLen
  by_cases h : name.length > 192
  · simp only [if_pos h, List.length_replicate, List.length_take]
    have e1 : min 192 (min 192 name.length) = 192 := by omega
    have e2 : 192 - name.length = 0 := by omega
    rw [e1, e2]
    simp [List.take_take]
  · simp only [if_neg h, List.length_replicate]
    have e1 : min 192 name.length = name.length := by omega
    rw [e1, List.take_length, List.drop_replicate]
    have e2 : List.take 192 name = name := List.take_of_length_le (by omega)
    rw [e2]

theorem createInner_ok (s : Store) (valueSize : Nat) (rest : List Bool) (hv : valueSize ≠ 0)
    (hm : s.memory = true :: rest) :
    s.createInner valueSize =
      (some s.inners.length,
        { s with inners := s.inners ++ [List.replicate (valueSize / 4) 0], memory := rest }) := by
  simp only [Store.createInner, if_neg hv, hm]

theorem createInner_some (s s1 : Store) (valueSize h : Nat)
    (hc : s.createInner valueSize = (some h, s1)) :
    valueSize ≠ 0 ∧ s.memory.head? = some true ∧ h = s.inners.length ∧
      s1 = { s with inners := s.inners ++ [List.replicate (valueSize / 4) 0],
                    memory := s.memory.tail } := by
  simp only [Store.createInner] at hc
  split at hc
  · simp at hc
  · rename_i hv
    split at hc
    · rename_i rest hm
      simp only [Prod.mk.injEq, Option.some.injEq] at hc
      obtain ⟨rfl, rfl⟩ := hc
      exact ⟨hv, by rw [hm]; rfl, rfl, by rw [hm]; rfl⟩
    · simp at hc
    · simp at hc

theorem innerUpdate_last (l : List (List Nat)) (v blob : List Nat)
    (o : List (List UInt8 × Nat)) (m : List Bool) :
    ({ inners := l ++ [v], outer := o, memory := m } : Store).innerUpdate l.length blob =
      if blob.length = v.length then some { inners := l ++ [blob], outer := o, memory := m }
      else none := by
  simp [Store.innerUpdate]

theorem outerUpdate_any (s : Store) (key : List UInt8) (h : Nat) :
    s.outerUpdate key h 0 =
      if (s.outerLookup key).isNone ∧ MaglevMapMaxEntries ≤ s.outer.length then none
      else some { s with outer := (key, h) :: s.outer.filter (fun e => decide (e.1 ≠ key)) } := by
  simp [Store.outerUpdate]

/-- When the conditions hold `updateMaglevTable` returns no error: it creates one
inner table, stores the blob in it, and binds the key of the name to it,
replacing the binding the key had. -/
theorem updateMaglevTable_publish (st : State) (ids : List Nat) (name : List UInt8)
    (h : CanPublish st ids (maglevKey name)) :
    updateMaglevTable st ids name =
      (none, { st with store :=
        { inners := st.store.inners ++ [ids],
          outer := (maglevKey name, st.store.inners.length) ::
            st.store.outer.filter (fun e => decide (e.1 ≠ maglevKey name)),
          memory := st.store.memory.tail } }) := by
  obtain ⟨hl, hv, hm, hlen, hroom⟩ := h
  obtain ⟨rest, hrest⟩ : ∃ rest, st.store.memory = true :: rest := by
    cases hmem : st.store.memory with
    | nil => rw [hmem] at hm; simp at hm
    | cons x rest => rw [hmem] at hm; simp at hm; exact ⟨rest, by rw [hm]⟩
  have hcap : ¬ ((st.store.outerLookup (maglevKey name)).isNone ∧
      MaglevMapMaxEntries ≤ st.store.outer.length) := by
    rintro ⟨h1, h2⟩
    rcases hroom with h3 | h3
    · rw [Option.isNone_iff_eq_none] at h1
      rw [h1] at h3
      simp at h3
    · omega
  have hlen1 : ids.length = (List.replicate ((4 * (st.maglevTableSize % U32)) % U32 / 4) (0 : Nat)).length := by
    rw [List.length_replicate]; exact hlen
  simp only [updateMaglevTable, hl, createMaglevInnerMap,
    createInner_ok st.store _ rest hv hrest, innerUpdate_last, if_pos hlen1, outerUpdate_any]
  rw [hrest]
  have hlook : ∀ (i : List (List Nat)) (m : List Bool),
      ({ inners := i, outer := st.store.outer, memory := m } : Store).outerLookup (maglevKey name)
        = st.store.outerLookup (maglevKey name) := fun _ _ => rfl
  simp only [hlook, if_neg hcap]
  rfl

/-- `updateMaglevTable` returns no error exactly when the conditions hold. -/
theorem updateMaglevTable_none_iff (st : State) (ids : List Nat) (name : List UInt8) :
    (updateMaglevTable st ids name).1 = none ↔ CanPublish st ids (maglevKey name) := by
  constructor
  · intro h
    simp only [updateMaglevTable] at h
    split at h
    · simp at h
    · rename_i hl
      split at h
      · simp at h
      · rename_i inner store1 hc
        obtain ⟨hv, hm, rfl, rfl⟩ := createInner_some _ _ _ _ hc
        rw [innerUpdate_last] at h
        split at h
        · simp at h
        · rename_i store2 hu
          split at hu
          · rename_i hlen
            simp only [Option.some.injEq] at hu
            subst hu
            rw [outerUpdate_any] at h
            split at h
            · simp at h
            · rename_i store3 ho
              split at ho
              · simp at ho
              · rename_i hcap0
                have hcap : ¬ ((st.store.outerLookup (maglevKey name)).isNone ∧
                    MaglevMapMaxEntries ≤ st.store.outer.length) := hcap0
                refine ⟨by simpa using hl, hv, hm, by simpa using hlen, ?_⟩
                by_cases hb : (st.store.outerLookup (maglevKey name)).isSome
                · exact Or.inl hb
                · right
                  by_contra hfull
                  apply hcap
                  refine ⟨?_, by omega⟩
                  rw [Option.isNone_iff_eq_none]
                  rw [Option.not_isSome_iff_eq_none] at hb
                  exact hb
          · simp at hu
  · intro h
    rw [updateMaglevTable_publish st ids name h]


theorem maglevKey_take (name : List UInt8) : maglevKey (name.take 192) = maglevKey name := by
  rw [maglevKey_eq, maglevKey_eq, List.take_take, Nat.min_self, List.length_take]
  have : 192 - min 192 name.length = 192 - name.length := by omega
  rw [this]

theorem find?_filter_ne (key key1 : List UInt8) (hk : key ≠ key1) :
    ∀ o : List (List UInt8 × Nat),
      (o.filter (fun e => decide (e.1 ≠ key))).find? (fun e => decide (e.1 = key1))
        = o.find? (fun e => decide (e.1 = key1)) := by
  intro o
  induction o with
  | nil => rfl
  | cons e o ih =>
    by_cases he : e.1 = key
    · have hdrop : ¬ (decide (e.1 ≠ key) = true) := by
        rw [decide_eq_true_eq]; exact fun hn => hn he
      have hskip : ¬ (decide (e.1 = key1) = true) := by
        rw [decide_eq_true_eq, he]; exact hk
      rw [List.filter_cons_of_neg (p := fun x : List UInt8 × Nat => decide (x.1 ≠ key)) hdrop,
        List.find?_cons_of_neg (p := fun x : List UInt8 × Nat => decide (x.1 = key1)) _ hskip, ih]
    · have hkeep : decide (e.1 ≠ key) = true := by
        rw [decide_eq_true_eq]; exact he
      rw [List.filter_cons_of_pos (p := fun x : List UInt8 × Nat => decide (x.1 ≠ key)) hkeep]
      by_cases he1 : e.1 = key1
      · have hhit : decide (e.1 = key1) = true := by rw [decide_eq_true_eq]; exact he1
        rw [List.find?_cons_of_pos (p := fun x : List UInt8 × Nat => decide (x.1 = key1)) _ hhit,
          List.find?_cons_of_pos (p := fun x : List UInt8 × Nat => decide (x.1 = key1)) _ hhit]
      · have hskip : ¬ (decide (e.1 = key1) = true) := by
          rw [decide_eq_true_eq]; exact he1
        rw [List.find?_cons_of_neg (p := fun x : List UInt8 × Nat => decide (x.1 = key1)) _ hskip,
          List.find?_cons_of_neg (p := fun x : List UInt8 × Nat => decide (x.1 = key1)) _ hskip, ih]

/-- The binding of another key is not touched when a key is bound. -/
theorem outerLookup_other (o : List (List UInt8 × Nat)) (i : List (List Nat)) (m : List Bool)
    (key key1 : List UInt8) (h : Nat) (hne : key1 ≠ key) :
    ({ inners := i, outer := (key, h) :: o.filter (fun e => decide (e.1 ≠ key)),
       memory := m } : Store).outerLookup key1
      = ({ inners := i, outer := o, memory := m } : Store).outerLookup key1 := by
  have hskip : ¬ (decide ((key, h).1 = key1) = true) := by
    rw [decide_eq_true_eq]; exact fun e => hne e.symm
  simp only [Store.outerLookup]
  rw [List.find?_cons_of_neg (p := fun x : List UInt8 × Nat => decide (x.1 = key1)) _ hskip,
    find?_filter_ne key key1 (fun e => hne e.symm)]

/-- C5: for every cluster name of length `L`, the outer-map key `updateMaglevTable`
builds is exactly 192 bytes long, its first `min(L, 192)` bytes are the first
`min(L, 192)` bytes of the name and all remaining bytes are 0. It is the key
`updateMaglevTable` binds: the call returns no error exactly when the conditions
for publishing under that key hold, and then the outer map binds that key to the
new inner table, which holds the blob, and every other key as before. A name
longer than 192 bytes is truncated without producing an error: the call does
exactly what it does for the first 192 bytes of the name. -/
theorem maglevKey_layout (clusterName : List UInt8) (st : State) (backendIDs : List Nat) :
    (maglevKey clusterName).length = 192 ∧
      (maglevKey clusterName).take (min clusterName.length 192)
        = clusterName.take (min clusterName.length 192) ∧
      (maglevKey clusterName).drop (min clusterName.length 192)
        = List.replicate (192 - min clusterName.length 192) 0 ∧
      ((updateMaglevTable st backendIDs clusterName).1 = none ↔
        CanPublish st backendIDs (maglevKey clusterName)) ∧
      ((updateMaglevTable st backendIDs clusterName).1 = none →
        (updateMaglevTable st backendIDs clusterName).2.store.outerLookup
            (maglevKey clusterName) = some st.store.inners.length ∧
          (updateMaglevTable st backendIDs clusterName).2.store.inners[
            st.store.inners.length]? = some backendIDs ∧
          ∀ key, key ≠ maglevKey clusterName →
            (updateMaglevTable st backendIDs clusterName).2.store.outerLookup key
              = st.store.outerLookup key) ∧
      updateMaglevTable st backendIDs clusterName
        = updateMaglevTable st backendIDs (clusterName.take 192) := by
  have hlen : (clusterName.take 192).length = min clusterName.length 192 := by
    rw [List.length_take, Nat.min_comm]
  have hrep : 192 - clusterName.length = 192 - min clusterName.length 192 := by omega
  have htake : clusterName.take 192 = clusterName.take (min clusterName.length 192) := by
    by_cases h : clusterName.length ≤ 192
    · rw [Nat.min_eq_left h, List.take_length, List.take_of_length_le h]
    · rw [Nat.min_eq_right (by omega)]
  refine ⟨?_, ?_, ?_, updateMaglevTable_none_iff st backendIDs clusterName, ?_, ?_⟩
  · rw [maglevKey_eq, List.length_append, List.length_replicate, hlen]
    omega
  · rw [maglevKey_eq, ← hlen, List.take_left, hlen, ← htake]
  · rw [maglevKey_eq, ← hlen, List.drop_left, hlen, hrep]
  · intro hnone
    have hcan := (updateMaglevTable_none_iff st backendIDs clusterName).mp hnone
    rw [updateMaglevTable_publish st backendIDs clusterName hcan]
    refine ⟨by simp [Store.outerLookup], by simp, ?_⟩
    intro key hkey
    exact outerLookup_other _ _ _ _ _ _ hkey
  · simp only [updateMaglevTable, maglevKey_take]

/-- C6, as amended: two cluster names with the same first 192 bytes get the same
outer key, and on an initialized package, for two blobs with as many entries as
the inner table holds, when the kernel has the memory for the two inner tables
and the outer map binds the key already or has room for it, publishing the first
and then the second succeeds both times and leaves the key bound once, to the
second table: the handle of the inner table that holds the second blob. The
second publish needs no room: the key exists. -/
theorem updateMaglevTable_overwrites (name1 name2 : List UInt8) (st : State)
    (ids1 ids2 : List Nat) (rest : List Bool) (hpre : name1.take 192 = name2.take 192)
    (hl : st.outerLoaded = true) (hv : (4 * (st.maglevTableSize % U32)) % U32 ≠ 0)
    (hm : st.store.memory = true :: true :: rest)
    (hlen1 : ids1.length = (4 * (st.maglevTableSize % U32)) % U32 / 4)
    (hlen2 : ids2.length = (4 * (st.maglevTableSize % U32)) % U32 / 4)
    (hroom : (st.store.outerLookup (maglevKey name1)).isSome ∨
      st.store.outer.length < MaglevMapMaxEntries) :
    maglevKey name1 = maglevKey name2 ∧
      (updateMaglevTable st ids1 name1).1 = none ∧
      (updateMaglevTable (updateMaglevTable st ids1 name1).2 ids2 name2).1 = none ∧
      (updateMaglevTable (updateMaglevTable st ids1 name1).2 ids2 name2).2.store.outerLookup
        (maglevKey name1) = some (st.store.inners.length + 1) ∧
      (updateMaglevTable (updateMaglevTable st ids1 name1).2 ids2 name2).2.store.inners[
        st.store.inners.length + 1]? = some ids2 ∧
      ((updateMaglevTable (updateMaglevTable st ids1 name1).2 ids2 name2).2.store.outer.filter
        (fun e => decide (e.1 = maglevKey name1))).length = 1 := by
  have hkey : maglevKey name1 = maglevKey name2 := by
    rw [← maglevKey_take name1, ← maglevKey_take name2, hpre]
  have hcan1 : CanPublish st ids1 (maglevKey name1) :=
    ⟨hl, hv, by rw [hm]; rfl, hlen1, hroom⟩
  have h1 := updateMaglevTable_publish st ids1 name1 hcan1
  have hcan2 : CanPublish (updateMaglevTable st ids1 name1).2 ids2 (maglevKey name2) := by
    rw [h1, ← hkey]
    refine ⟨hl, hv, by simp only [hm]; rfl, hlen2, Or.inl ?_⟩
    simp [Store.outerLookup]
  have h2 := updateMaglevTable_publish (updateMaglevTable st ids1 name1).2 ids2 name2 hcan2
  refine ⟨hkey, by rw [h1], by rw [h2], ?_, ?_, ?_⟩
  · rw [h2, h1, ← hkey]
    simp [Store.outerLookup]
  · have hget : ∀ (l : List (List Nat)) (a b : List Nat),
        (l ++ [a] ++ [b])[l.length + 1]? = some b := by
      intro l a b
      rw [List.getElem?_append_right (by simp)]
      simp
    rw [h2, h1]
    exact hget _ _ _
  · rw [h2, h1, ← hkey]
    simp [List.filter_filter]

/-- Scenario S5 on the model: the names `"a" + "x"*200` and `"a" + "x"*192`, tables of
5 entries. -/
theorem updateMaglevTable_overwrites_witness :
    maglevKey (97 :: List.replicate 200 120) = maglevKey (97 :: List.replicate 192 120) ∧
      (updateMaglevTable ⟨true, 616034178, 5, ⟨[], [], [true, true]⟩⟩ [0, 0, 0, 0, 0]
        (97 :: List.replicate 200 120)).1 = none ∧
      (updateMaglevTable (updateMaglevTable ⟨true, 616034178, 5, ⟨[], [], [true, true]⟩⟩
        [0, 0, 0, 0, 0] (97 :: List.replicate 200 120)).2 [0, 1, 0, 1, 0]
          (97 :: List.replicate 192 120)).1 = none ∧
      (updateMaglevTable (updateMaglevTable ⟨true, 616034178, 5, ⟨[], [], [true, true]⟩⟩
        [0, 0, 0, 0, 0] (97 :: List.replicate 200 120)).2 [0, 1, 0, 1, 0]
          (97 :: List.replicate 192 120)).2.store.outerLookup
        (maglevKey (97 :: List.replicate 200 120))
          = some ((⟨true, 616034178, 5, ⟨[], [], [true, true]⟩⟩ : State).store.inners.length
              + 1) ∧
      (updateMaglevTable (updateMaglevTable ⟨true, 616034178, 5, ⟨[], [], [true, true]⟩⟩
        [0, 0, 0, 0, 0] (97 :: List.replicate 200 120)).2 [0, 1, 0, 1, 0]
          (97 :: List.replicate 192 120)).2.store.inners[
        (⟨true, 616034178, 5, ⟨[], [], [true, true]⟩⟩ : State).store.inners.length + 1]?
          = some [0, 1, 0, 1, 0] ∧
      ((updateMaglevTable (updateMaglevTable ⟨true, 616034178, 5, ⟨[], [], [true, true]⟩⟩
        [0, 0, 0, 0, 0] (97 :: List.replicate 200 120)).2 [0, 1, 0, 1, 0]
          (97 :: List.replicate 192 120)).2.store.outer.filter
        (fun e => decide (e.1 = maglevKey (97 :: List.replicate 200 120)))).length = 1 :=
  updateMaglevTable_overwrites (97 :: List.replicate 200 120) (97 :: List.replicate 192 120)
    ⟨true, 616034178, 5, ⟨[], [], [true, true]⟩⟩ [0, 0, 0, 0, 0] [0, 1, 0, 1, 0] []
    (by rfl) rfl (by decide) rfl (by decide) (by decide) (Or.inr (by decide))

/-- C6 as stated fails: the names `"a" + "x"*200` and `"a" + "x"*192` share their
first 192 bytes, and publishing the first does not succeed when the blob has 3
entries for an inner table of 5 (`inner.Update` fails), when the kernel has no
memory for the inner table (`ebpf.NewMap` fails), or when the package is not
initialized; the outer map then has no binding for the key. -/
theorem updateMaglevTable_overwrites_counterexample :
    (97 :: List.replicate 200 120 : List UInt8).take 192
        = (97 :: List.replicate 192 120 : List UInt8).take 192 ∧
      (updateMaglevTable ⟨true, 616034178, 5, ⟨[], [], [true, true]⟩⟩ [0, 0, 0]
          (97 :: List.replicate 200 120)).1 = some .updatingBackends ∧
      (updateMaglevTable ⟨true, 616034178, 5, ⟨[], [], [true, true]⟩⟩ [0, 0, 0]
          (97 :: List.replicate 200 120)).2.store.outer = [] ∧
      (updateMaglevTable ⟨true, 616034178, 5, ⟨[], [], [false, true]⟩⟩ [0, 0, 0, 0, 0]
          (97 :: List.replicate 200 120)).1 = some .innerCreate ∧
      (updateMaglevTable ⟨true, 616034178, 5, ⟨[], [], [false, true]⟩⟩ [0, 0, 0, 0, 0]
          (97 :: List.replicate 200 120)).2.store.outer = [] ∧
      (updateMaglevTable ⟨false, 616034178, 5, ⟨[], [], [true, true]⟩⟩ [0, 0, 0, 0, 0]
          (97 :: List.replicate 200 120)).1 = some .outerNotInitialized ∧
      (updateMaglevTable ⟨false, 616034178, 5, ⟨[], [], [true, true]⟩⟩ [0, 0, 0, 0, 0]
          (97 :: List.replicate 200 120)).2.store.outer = [] :=
  ⟨by rfl, by rfl, by rfl, by rfl, by rfl, by rfl, by rfl⟩

/-! ## A cluster without endpoints (C2) -/

/-- On an initialized package `CreateLB`, given a cluster whose flattened endpoint
list is empty, publishes whenever a table of `maglevTableSize` zeros can be
published: it returns no error, creates an inner table of `maglevTableSize` zeros
and binds the key of the cluster name to it. -/
theorem CreateLB_no_endpoints (hash128 : List UInt8 → Nat → Nat × Nat) (st : State)
    (cl : Cluster) (hflat : cl.localities.foldl (fun acc eps => acc ++ eps) [] = [])
    (hcan : CanPublish st (List.replicate st.maglevTableSize 0) (maglevKey cl.name)) :
    CreateLB hash128 st (some cl) =
      .ok (none, { st with store :=
        { inners := st.store.inners ++ [List.replicate st.maglevTableSize 0],
          outer := (maglevKey cl.name, st.store.inners.length) ::
            st.store.outer.filter (fun e => decide (e.1 ≠ maglevKey cl.name)),
          memory := st.store.memory.tail } }) := by
  have hfill : fillBackendIDs st.maglevTableSize []
      = .ok (List.replicate st.maglevTableSize 0) := by
    simp [fillBackendIDs]
  simp only [CreateLB, hflat, buildBackends, getLookupTable, List.length_nil, if_true, hfill,
    updateMaglevTable_publish st _ cl.name hcan]

/-- Scenario S3 on the model: after initialization with the default table size and an
empty store, when the kernel has the memory for one more inner table, `CreateLB`
on the cluster `"c3"` without endpoints returns `nil` and leaves the outer map
with a binding for `"c3"`, to a table of 16381 zeros. -/
theorem CreateLB_empty_cluster_publishes (hash128 : List UInt8 → Nat → Nat × Nat)
    (more : List Bool) :
    CreateLB hash128 ⟨true, 616034178, 16381, ⟨[], [], true :: more⟩⟩ (some ⟨[99, 51], []⟩)
      = .ok (none, ⟨true, 616034178, 16381,
          ⟨[List.replicate 16381 0], [(maglevKey [99, 51], 0)], more⟩⟩) := by
  have hcan : CanPublish ⟨true, 616034178, 16381, ⟨[], [], true :: more⟩⟩
      (List.replicate 16381 0) (maglevKey [99, 51]) :=
    ⟨rfl, by show (4 * (16381 % U32)) % U32 ≠ 0; decide, rfl,
      by show (List.replicate 16381 0).length = (4 * (16381 % U32)) % U32 / 4
         rw [List.length_replicate]; decide,
      Or.inr (by show ([] : List (List UInt8 × Nat)).length < MaglevMapMaxEntries; decide)⟩
  rw [CreateLB_no_endpoints hash128 ⟨true, 616034178, 16381, ⟨[], [], true :: more⟩⟩
    ⟨[99, 51], []⟩ rfl hcan]
  rfl

/-! ## The hash seed (C9) -/

/-- The seed is the first four bytes read big-endian. -/
theorem seedOfBytes_eq (b0 b1 b2 b3 : UInt8) (rest : List UInt8) :
    seedOfBytes (b0 :: b1 :: b2 :: b3 :: rest)
      = b0.toNat * 16777216 + b1.toNat * 65536 + b2.toNat * 256 + b3.toNat := by
  have h0 : b0.toNat < 256 := b0.toNat_lt
  have h1 : b1.toNat < 256 := b1.toNat_lt
  have h2 : b2.toNat < 256 := b2.toNat_lt
  have h3 : b3.toNat < 256 := b3.toNat_lt
  have m0 : b0.toNat * 2 ^ 24 % U32 = 2 ^ 24 * b0.toNat := by
    unfold U32; omega
  have m1 : b1.toNat * 2 ^ 16 % U32 = b1.toNat * 65536 := by
    unfold U32; omega
  have m2 : b2.toNat * 2 ^ 8 % U32 = b2.toNat * 256 := by
    unfold U32; omega
  have e1 := Nat.mul_add_lt_is_or (i := 24) (b := b1.toNat * 65536) (by omega) b0.toNat
  have e2 := Nat.mul_add_lt_is_or (i := 16) (b := b2.toNat * 256) (by omega)
    (b0.toNat * 256 + b1.toNat)
  have e3 := Nat.mul_add_lt_is_or (i := 8) (b := b3.toNat) (by omega)
    (b0.toNat * 65536 + b1.toNat * 256 + b2.toNat)
  have f2 : 2 ^ 16 * (b0.toNat * 256 + b1.toNat) = 2 ^ 24 * b0.toNat + b1.toNat * 65536 := by
    omega
  have f3 : 2 ^ 8 * (b0.toNat * 65536 + b1.toNat * 256 + b2.toNat)
      = 2 ^ 24 * b0.toNat + b1.toNat * 65536 + b2.toNat * 256 := by omega
  simp only [seedOfBytes, List.getD_cons_zero, List.getD_cons_succ, Nat.shiftLeft_eq, m0, m1, m2]
  rw [← e1, ← f2, ← e2, f2, ← f3, ← e3]
  omega

/-- C9: standard base64 decoding of the constant `"JLfvgnHc2kaSUFaI"` yields exactly 12
bytes, so `InitMaglevMap` passes the length check, and the seed it stores is the
first four decoded bytes read big-endian, `0x24B7EF82`; for a seed constant whose
decoded payload `d` has a length other than 12, initialization returns an error
and leaves the seed as it was. -/
theorem InitMaglevMap_seed (hashSeed : String) (d : List UInt8) (pinned : Bool) (st : State)
    (hd : base64Decode hashSeed = some d) (hlen : d.length ≠ 12) :
    base64Decode DefaultHashSeed
        = some [36, 183, 239, 130, 113, 220, 218, 70, 146, 80, 86, 136] ∧
      ([36, 183, 239, 130, 113, 220, 218, 70, 146, 80, 86, 136] : List UInt8).length = 12 ∧
      InitMaglevMap true st
        = (none, { st with maglevTableSize := DefaultTableSize, outerLoaded := true,
                           seedMurmur := 0x24B7EF82 }) ∧
      seedOfBytes [36, 183, 239, 130, 113, 220, 218, 70, 146, 80, 86, 136]
        = 36 * 2 ^ 24 + 183 * 2 ^ 16 + 239 * 2 ^ 8 + 130 ∧
      (InitMaglevMapWith hashSeed pinned st).1 ≠ none ∧
      (pinned = true → (InitMaglevMapWith hashSeed pinned st).1 = some (.seedNot12Bytes d.length)) ∧
      (InitMaglevMapWith hashSeed pinned st).2.seedMurmur = st.seedMurmur := by
  have hdec : base64Decode DefaultHashSeed
      = some [36, 183, 239, 130, 113, 220, 218, 70, 146, 80, 86, 136] := by decide
  refine ⟨hdec, rfl, ?_, by decide, ?_, ?_, ?_⟩
  · simp only [InitMaglevMap, InitMaglevMapWith, hdec]
    rfl
  · cases pinned <;> simp [InitMaglevMapWith, hd, hlen]
  · intro hp
    simp [InitMaglevMapWith, hd, hlen, hp]
  · cases pinned <;> simp [InitMaglevMapWith, hd, hlen]

/-- C9 for the seed constant `"AAAA"`, which decodes to 3 bytes. -/
theorem InitMaglevMap_seed_witness :
    base64Decode DefaultHashSeed
        = some [36, 183, 239, 130, 113, 220, 218, 70, 146, 80, 86, 136] ∧
      ([36, 183, 239, 130, 113, 220, 218, 70, 146, 80, 86, 136] : List UInt8).length = 12 ∧
      InitMaglevMap true ⟨false, 0, 0, ⟨[], [], []⟩⟩
        = (none, { (⟨false, 0, 0, ⟨[], [], []⟩⟩ : State) with
                     maglevTableSize := DefaultTableSize, outerLoaded := true,
                     seedMurmur := 0x24B7EF82 }) ∧
      seedOfBytes [36, 183, 239, 130, 113, 220, 218, 70, 146, 80, 86, 136]
        = 36 * 2 ^ 24 + 183 * 2 ^ 16 + 239 * 2 ^ 8 + 130 ∧
      (InitMaglevMapWith "AAAA" true ⟨false, 0, 0, ⟨[], [], []⟩⟩).1 ≠ none ∧
      (true = true → (InitMaglevMapWith "AAAA" true ⟨false, 0, 0, ⟨[], [], []⟩⟩).1
        = some (.seedNot12Bytes ([0, 0, 0] : List UInt8).length)) ∧
      (InitMaglevMapWith "AAAA" true ⟨false, 0, 0, ⟨[], [], []⟩⟩).2.seedMurmur
        = (⟨false, 0, 0, ⟨[], [], []⟩⟩ : State).seedMurmur :=
  InitMaglevMap_seed "AAAA" [0, 0, 0] true ⟨false, 0, 0, ⟨[], [], []⟩⟩ (by decide) (by decide)

/-! ## Termination of the population loop (C11) -/

/-- In a table of `M` slots of which fewer than `M` are assigned, the collision
loop of a backend with `0 ≤ offset < M`, `1 ≤ skip < M`, started at `next = 0`,
exits at a counter `k < M`, at a free slot, and every slot it tests is in the table. -/
theorem probe_terminates {M : Nat} {t : List Int} (b : Backend) (hM : Nat.Prime M)
    (hU : M ≤ U32) (ho : b.offset < M) (hs1 : 1 ≤ b.skip) (hs : b.skip < M)
    (hlen : t.length = M) (hcnt : t.countP (fun v => decide (0 ≤ v)) < M) :
    ∃ k c, k < M ∧ c < M ∧ (∃ v, t[c]? = some v ∧ v < 0) ∧
      (∀ k1, k1 ≤ k → ∃ c1, getPermutation M { b with next := k1 } = .ok c1 ∧ c1 < t.length) ∧
      probe M t { b with next := 0 } U64 = .ok (c, { b with next := k }) := by
  classical
  have hMpos : 0 < M := hM.pos
  have hMU : M < U64 := lt_of_le_of_lt hU (by unfold U32 U64; norm_num)
  have hex : ∃ c, c < M ∧ ∃ v, t[c]? = some v ∧ v < 0 := by
    by_contra hcon
    have hall : t.countP (fun v => decide (0 ≤ v)) = t.length := by
      rw [List.countP_eq_length]
      intro a ha
      obtain ⟨c, hc, rfl⟩ := List.getElem_of_mem ha
      have hget : t[c]? = some t[c] := List.getElem?_eq_getElem hc
      by_contra hneg
      have hlt0 : t[c] < 0 := by
        have : ¬ 0 ≤ t[c] := by simpa using hneg
        omega
      exact hcon ⟨c, hlen ▸ hc, t[c], hget, hlt0⟩
    omega
  have hcop := coprime_of_prime hM hs1 hs
  have hex2 : ∃ k, k < M ∧ ∃ v, t[(b.offset + b.skip * k) % M]? = some v ∧ v < 0 := by
    obtain ⟨c, hc, hfree⟩ := hex
    obtain ⟨k, hk, rfl⟩ := slot_surj (o := b.offset) hcop hMpos c hc
    exact ⟨k, hk, hfree⟩
  let k := Nat.find hex2
  have hk : k < M ∧ ∃ v, t[(b.offset + b.skip * k) % M]? = some v ∧ v < 0 := Nat.find_spec hex2
  have hperm : ∀ k1, k1 < M →
      getPermutation M { b with next := k1 } = .ok ((b.offset + b.skip * k1) % M) :=
    fun k1 hk1 => getPermutation_nowrap b k1 hMpos (nowrap_of_lt_U32 hU ho hs hk1)
  have hmin : ∀ k1, k1 < k → occAt M t b k1 := by
    intro k1 hk1
    have hnot := Nat.find_min hex2 hk1
    have hk1M : k1 < M := lt_trans hk1 hk.1
    have hlt : (b.offset + b.skip * k1) % M < t.length := by
      rw [hlen]; exact Nat.mod_lt _ hMpos
    have hget := List.getElem?_eq_getElem hlt
    refine ⟨_, _, hperm k1 hk1M, hget, ?_⟩
    by_contra hneg
    exact hnot ⟨hk1M, _, hget, by omega⟩
  obtain ⟨v, hv, hv0⟩ := hk.2
  refine ⟨k, (b.offset + b.skip * k) % M, hk.1, Nat.mod_lt _ hMpos, ⟨v, hv, hv0⟩, ?_, ?_⟩
  · intro k1 hk1
    exact ⟨_, hperm k1 (lt_of_le_of_lt hk1 hk.1), by rw [hlen]; exact Nat.mod_lt _ hMpos⟩
  · have hkU : (0 + k) % U64 = k := by
      rw [Nat.zero_add]; exact Nat.mod_eq_of_lt (lt_trans hk.1 hMU)
    have := probe_run (M := M) (t := t) (b := b) k U64 0 ((b.offset + b.skip * k) % M) v
      (lt_trans hk.1 hMU) U64_pos
      (fun i1 hi1 => by
        have : (0 + i1) % U64 = i1 := by
          rw [Nat.zero_add]; exact Nat.mod_eq_of_lt (lt_trans (lt_trans hi1 hk.1) hMU)
        rw [this]; exact hmin i1 hi1)
      (by rw [hkU]; exact hperm k hk.1) hv hv0
    rw [this, hkU]

/-- One iteration of the outer loop on a table of `M` slots of which at most
`n < M` are assigned: the collision loop exits, and one more slot at most is assigned. -/
theorem populateStep_terminates {M n : Nat} {bs : List Backend} {t : List Int}
    (hM : Nat.Prime M) (hU : M ≤ U32) (hN : 0 < bs.length)
    (hos : ∀ b ∈ bs, b.offset < M ∧ 1 ≤ b.skip ∧ b.skip < M ∧ b.next = 0)
    (hlen : t.length = M) (hcnt : t.countP (fun v => decide (0 ≤ v)) ≤ n) (hn : n < M) :
    ∃ b k c, bs[n % bs.length]? = some b ∧ k < M ∧ c < M ∧
      (∀ k1, k1 ≤ k → ∃ c1, getPermutation M { b with next := k1 } = .ok c1 ∧ c1 < t.length) ∧
      probe M t b U64 = .ok (c, { b with next := k }) ∧
      populateStep M bs t n = .ok (t.set c b.index) ∧
      (t.set c b.index).countP (fun v => decide (0 ≤ v)) ≤ n + 1 := by
  have hlt : n % bs.length < bs.length := Nat.mod_lt _ hN
  have hmem : bs.get ⟨n % bs.length, hlt⟩ ∈ bs := List.get_mem _ _ _
  obtain ⟨ho, hs1, hs, hnext⟩ := hos _ hmem
  have hn63 : n < 2 ^ 63 := by
    have : M ≤ 2 ^ 32 := hU
    omega
  obtain ⟨k, c, hk, hc, ⟨v, hv, hv0⟩, hbounds, hprobe⟩ :=
    probe_terminates (bs.get ⟨n % bs.length, hlt⟩) hM hU ho hs1 hs hlen (by omega)
  have hb : ({ bs.get ⟨n % bs.length, hlt⟩ with next := 0 } : Backend)
      = bs.get ⟨n % bs.length, hlt⟩ := by
    rw [← hnext]
  rw [hb] at hprobe
  have hclt : c < t.length := by omega
  have hval : t[c] = v := by
    rw [List.getElem?_eq_getElem hclt] at hv
    exact Option.some.inj hv
  refine ⟨bs.get ⟨n % bs.length, hlt⟩, k, c, ?_, hk, hc, hbounds, hprobe, ?_, ?_⟩
  · rw [List.getElem?_eq_getElem hlt, List.get_eq_getElem]
  · rw [populateStep_pick hn63 hN, hprobe]
  · rw [List.countP_set _ _ _ _ hclt, hval]
    have hfalse : decide (0 ≤ v) = false := by
      rw [decide_eq_false_iff_not]; omega
    simp only [hfalse, Bool.false_eq_true, if_false, Nat.sub_zero]
    split <;> omega

/-- After the first `n ≤ M` iterations the outer loop has returned a table of `M`
slots of which at most `n` are assigned. -/
theorem populate_terminates {M : Nat} {bs : List Backend} (hM : Nat.Prime M) (hU : M ≤ U32)
    (hN : 0 < bs.length)
    (hos : ∀ b ∈ bs, b.offset < M ∧ 1 ≤ b.skip ∧ b.skip < M ∧ b.next = 0) :
    ∀ n, n ≤ M → ∃ t, populate M bs (List.replicate M (-1)) (List.range n) = .ok t ∧
      t.length = M ∧ t.countP (fun v => decide (0 ≤ v)) ≤ n := by
  intro n
  induction n with
  | zero =>
    intro _
    refine ⟨_, rfl, List.length_replicate _ _, ?_⟩
    rw [Nat.le_zero, List.countP_eq_zero]
    intro a ha
    rw [List.eq_of_mem_replicate ha]
    decide
  | succ n ih =>
    intro hn
    obtain ⟨t, ht, hlen, hcnt⟩ := ih (by omega)
    obtain ⟨b, k, c, _, _, _, _, _, hstep, hcnt1⟩ :=
      populateStep_terminates hM hU hN hos hlen hcnt (by omega)
    refine ⟨t.set c b.index, ?_, by rw [List.length_set]; exact hlen, hcnt1⟩
    rw [List.range_succ, populate_append, ht]
    simp only [populate, hstep]

/-- For the table size `2^32 + 15` and the backend with skip `2^32`: the table the
first `2^32` iterations leave, on which the collision loop does not exit. -/
theorem wrap_probe_diverges :
    ∃ t, populate wrapSize [wrapBackend] (List.replicate wrapSize (-1))
        (List.range 4294967296) = .ok t ∧
      probe wrapSize t wrapBackend U64 = .error .diverges := by
  obtain ⟨t, ht, _, hocc, _⟩ := wrap_populate 4294967296 (le_refl _)
  refine ⟨t, ht, ?_⟩
  have hall : ∀ i, i < U64 → occAt wrapSize t wrapBackend ((0 + i) % U64) := by
    intro i _
    have h1 := hocc ((0 + i) % U64 % 4294967296) (Nat.mod_lt _ (by norm_num))
    obtain ⟨c, v, hc, hv, h0⟩ := h1
    refine ⟨c, v, ?_, hv, h0⟩
    rw [wrap_slot] at hc ⊢
    rw [Nat.mod_mod] at hc
    exact hc
  exact probe_all_occ (M := wrapSize) (t := t) (b := wrapBackend) U64 0 U64_pos hall

/-- C11, as amended: for every prime `M` below `2^32` and every non-empty backend list
with `0 ≤ offset < M`, `1 ≤ skip < M` and `next = 0`, in every one of the `M`
outer iterations of `getLookupTable` the loop has returned a table `t` of `M`
slots so far, the collision loop on the backend of the iteration exits at a free
slot `c` after `k < M` increments of `b.next`, every slot it tests on the way is
within the table, and `getLookupTable` returns a table of `M` slots. -/
theorem getLookupTable_terminates (M : Nat) (backends : List Backend)
    (hM : Nat.Prime M) (hU : M < U32) (hne : backends ≠ [])
    (hos : ∀ b ∈ backends, b.offset < M ∧ 1 ≤ b.skip ∧ b.skip < M ∧ b.next = 0) :
    (∀ n, n < M → ∃ t b k c,
      populate M backends (List.replicate M (-1)) (List.range n) = .ok t ∧ t.length = M ∧
      backends[n % backends.length]? = some b ∧
      probe M t b U64 = .ok (c, { b with next := k }) ∧ k < M ∧ c < t.length ∧
      (∀ k1, k1 ≤ k → ∃ c1, getPermutation M { b with next := k1 } = .ok c1 ∧ c1 < t.length)) ∧
    ∃ T, getLookupTable M backends M = .ok T ∧ T.length = M := by
  have hN : 0 < backends.length := List.length_pos.mpr hne
  constructor
  · intro n hn
    obtain ⟨t, ht, hlen, hcnt⟩ := populate_terminates hM (le_of_lt hU) hN hos n (le_of_lt hn)
    obtain ⟨b, k, c, hb, hk, hc, hbounds, hprobe, _, _⟩ :=
      populateStep_terminates hM (le_of_lt hU) hN hos hlen hcnt hn
    exact ⟨t, b, k, c, ht, hlen, hb, hprobe, hk, by omega, hbounds⟩
  · obtain ⟨T, hT, hlen, _⟩ := populate_terminates hM (le_of_lt hU) hN hos M (le_refl M)
    refine ⟨T, ?_, hlen⟩
    have hM63 : ¬ 2 ^ 63 ≤ M := by
      have : M < 2 ^ 32 := hU
      omega
    simp only [getLookupTable]
    rw [if_neg (by omega), if_neg hM63]
    exact hT

/-- C11 at table size 7 with three backends. -/
theorem getLookupTable_terminates_witness :
    (∀ n, n < 7 → ∃ t b k c,
      populate 7 [⟨⟨[]⟩, 0, 3, 4, 0⟩, ⟨⟨[]⟩, 1, 0, 2, 0⟩, ⟨⟨[]⟩, 2, 3, 6, 0⟩]
        (List.replicate 7 (-1)) (List.range n) = .ok t ∧ t.length = 7 ∧
      ([⟨⟨[]⟩, 0, 3, 4, 0⟩, ⟨⟨[]⟩, 1, 0, 2, 0⟩, ⟨⟨[]⟩, 2, 3, 6, 0⟩] : List Backend)[
        n % ([⟨⟨[]⟩, 0, 3, 4, 0⟩, ⟨⟨[]⟩, 1, 0, 2, 0⟩, ⟨⟨[]⟩, 2, 3, 6, 0⟩] : List Backend).length]?
          = some b ∧
      probe 7 t b U64 = .ok (c, { b with next := k }) ∧ k < 7 ∧ c < t.length ∧
      (∀ k1, k1 ≤ k → ∃ c1, getPermutation 7 { b with next := k1 } = .ok c1 ∧ c1 < t.length)) ∧
    ∃ T, getLookupTable 7 [⟨⟨[]⟩, 0, 3, 4, 0⟩, ⟨⟨[]⟩, 1, 0, 2, 0⟩, ⟨⟨[]⟩, 2, 3, 6, 0⟩] 7 = .ok T ∧
      T.length = 7 :=
  getLookupTable_terminates 7 [⟨⟨[]⟩, 0, 3, 4, 0⟩, ⟨⟨[]⟩, 1, 0, 2, 0⟩, ⟨⟨[]⟩, 2, 3, 6, 0⟩]
    (by norm_num) (by decide) (by simp) (by decide)

/-- C11 as stated fails: `2^32 + 15` is prime, the single backend with offset 0, skip
`2^32` and `next = 0` satisfies `0 ≤ offset < M` and `1 ≤ skip < M`, the first
`2^32` outer iterations return a table, and on that table the collision loop of
iteration `2^32` does not exit, whatever the number of increments:
`getLookupTable` does not return. -/
theorem getLookupTable_terminates_counterexample :
    Nat.Prime wrapSize ∧ [wrapBackend] ≠ [] ∧
      (∀ b ∈ [wrapBackend],
        b.offset < wrapSize ∧ 1 ≤ b.skip ∧ b.skip < wrapSize ∧ b.next = 0) ∧
      (∃ t, populate wrapSize [wrapBackend] (List.replicate wrapSize (-1))
          (List.range 4294967296) = .ok t ∧
        [wrapBackend][4294967296 % [wrapBackend].length]? = some wrapBackend ∧
        probe wrapSize t wrapBackend U64 = .error .diverges) ∧
      getLookupTable wrapSize [wrapBackend] wrapSize = .error .diverges := by
  obtain ⟨t, ht, hp⟩ := wrap_probe_diverges
  exact ⟨wrapSize_prime, by simp, by decide, ⟨t, ht, by decide, hp⟩, wrap_diverges⟩

/-! ## The exact share of each backend (C12) -/

/-- Whenever the collision loop exits, it does so at a slot of the table that is
unassigned, with the index of the backend it started with. -/
theorem probe_ok_free {M : Nat} {t : List Int} :
    ∀ (f : Nat) (b : Backend) (c : Nat) (b1 : Backend), probe M t b f = .ok (c, b1) →
      b1.index = b.index ∧ ∃ v, t[c]? = some v ∧ v < 0 := by
  intro f
  induction f with
  | zero => intro b c b1 h; simp [probe] at h
  | succ f ih =>
    intro b c b1 h
    simp only [probe] at h
    split at h
    · simp at h
    · split at h
      · simp at h
      · rename_i v hv
        split at h
        · exact ih { b with next := (b.next + 1) % U64 } c b1 h
        · rename_i h0
          simp only [Except.ok.injEq, Prod.mk.injEq] at h
          obtain ⟨rfl, rfl⟩ := h
          exact ⟨rfl, v, hv, by omega⟩

/-- An iteration of the outer loop that returns keeps the loop invariant, whatever
the offsets and skips are. -/
theorem populateStep_share {M n : Nat} {bs : List Backend} {t t1 : List Int}
    (hn : n < 2 ^ 63) (hN : 0 < bs.length)
    (hidx : ∀ i, ∀ h : i < bs.length, (bs.get ⟨i, h⟩).index = (i : Int))
    (hinv : Inv M bs.length n t) (hstep : populateStep M bs t n = .ok t1) :
    Inv M bs.length (n + 1) t1 := by
  rw [populateStep_pick hn hN] at hstep
  split at hstep
  · simp at hstep
  · rename_i c b1 hp
    obtain ⟨hb1, v, hv, hv0⟩ := probe_ok_free _ _ _ _ hp
    simp only [Except.ok.injEq] at hstep
    rw [← hstep, hb1, hidx]
    apply hinv.set hN
    rcases hinv.vals c v hv with h | h
    · rw [hv, h]
    · omega

/-- Whenever the first `n` iterations return a table, it satisfies the loop invariant. -/
theorem populate_share {M : Nat} {bs : List Backend} (hN : 0 < bs.length)
    (hidx : ∀ i, ∀ h : i < bs.length, (bs.get ⟨i, h⟩).index = (i : Int)) :
    ∀ n, n ≤ 2 ^ 63 → ∀ t,
      populate M bs (List.replicate M (-1)) (List.range n) = .ok t → Inv M bs.length n t := by
  intro n
  induction n with
  | zero =>
    intro _ t ht
    simp only [List.range_zero, populate, Except.ok.injEq] at ht
    rw [← ht]
    exact Inv.init M bs.length
  | succ n ih =>
    intro hn t ht
    rw [List.range_succ, populate_append] at ht
    cases hp : populate M bs (List.replicate M (-1)) (List.range n) with
    | error e => rw [hp] at ht; simp at ht
    | ok t0 =>
      rw [hp] at ht
      simp only [populate] at ht
      cases hs : populateStep M bs t0 n with
      | error e => rw [hs] at ht; simp at ht
      | ok t1 =>
        rw [hs] at ht
        simp only [Except.ok.injEq] at ht
        rw [← ht]
        exact populateStep_share (by omega) hN hidx (ih (by omega) t0 hp) hs

theorem turns_eq_zero {N i : Nat} (hN : 0 < N) (hi : N ≤ i) (M : Nat) : turns M N i = 0 := by
  unfold turns
  rw [List.length_eq_zero, List.filter_eq_nil_iff]
  intro n _
  have := Nat.mod_lt n hN
  simp only [decide_eq_true_eq]
  omega

/-- On a table of `M` slots the collision loop does not panic: it exits or it
never does. -/
theorem probe_cases {M : Nat} {t : List Int} (hM : 0 < M) (hlen : t.length = M) :
    ∀ (f : Nat) (b : Backend),
      probe M t b f = .error .diverges ∨ ∃ c b1, probe M t b f = .ok (c, b1) := by
  intro f
  induction f with
  | zero => intro b; left; rfl
  | succ f ih =>
    intro b
    have hc : getPermutation M b
        = .ok ((b.offset + (b.skip * b.next) % U64) % U64 % M) := by
      simp only [getPermutation]
      rw [if_neg (by omega)]
    have hlt : (b.offset + (b.skip * b.next) % U64) % U64 % M < t.length := by
      rw [hlen]; exact Nat.mod_lt _ hM
    simp only [probe, hc, List.getElem?_eq_getElem hlt]
    split
    · exact ih _
    · right; exact ⟨_, _, rfl⟩

theorem getPermutation_next_mod (M : Nat) (b : Backend) :
    getPermutation M { b with next := b.next % U64 } = getPermutation M b := by
  simp only [getPermutation]
  rw [Nat.mul_mod b.skip (b.next % U64), Nat.mod_mod, ← Nat.mul_mod]

/-- When some counter leads to an unassigned slot, the collision loop exits,
whatever counter it starts with. -/
theorem probe_exits {M : Nat} {t : List Int} (b : Backend) (hM : 0 < M) (hlen : t.length = M)
    (hfree : ∃ k, k < U64 ∧ freeAt M t b k) : ∃ c b1, probe M t b U64 = .ok (c, b1) := by
  obtain ⟨k, hk, c, v, hc, hv, hv0⟩ := hfree
  obtain ⟨f, hf⟩ : ∃ f, U64 = f + 1 := ⟨U64 - 1, by unfold U64; norm_num⟩
  have hstart : probe M t b (f + 1) = probe M t { b with next := b.next } (f + 1) := rfl
  have hc0 : getPermutation M { b with next := b.next }
      = .ok ((b.offset + (b.skip * b.next) % U64) % U64 % M) := by
    simp only [getPermutation]
    rw [if_neg (by omega)]
  have hlt : (b.offset + (b.skip * b.next) % U64) % U64 % M < t.length := by
    rw [hlen]; exact Nat.mod_lt _ hM
  have hget := List.getElem?_eq_getElem hlt
  rw [show probe M t b U64 = probe M t b (f + 1) by rw [hf], hstart]
  by_cases h0 : 0 ≤ t[(b.offset + (b.skip * b.next) % U64) % U64 % M]
  · have hocc : occAt M t b b.next := ⟨_, _, hc0, hget, h0⟩
    rw [probe_succ_occ f hocc]
    rcases probe_cases hM hlen f { b with next := (b.next + 1) % U64 } with hdiv | hok
    · exfalso
      have hall := probe_diverges_inv (M := M) (t := t) (b := b) f ((b.next + 1) % U64)
        (Nat.mod_lt _ U64_pos) hdiv
      have hocck : occAt M t b k := by
        by_cases hkn : k = b.next % U64
        · obtain ⟨c1, v1, hc1, hv1, hv10⟩ := hocc
          refine ⟨c1, v1, ?_, hv1, hv10⟩
          rw [hkn]
          have := getPermutation_next_mod M { b with next := b.next }
          exact this.trans hc1
        · have hi : (k + U64 - (b.next + 1) % U64) % U64 < f := by
            unfold U64 at hf hk hkn ⊢; omega
          have := hall _ hi
          have e : ((b.next + 1) % U64 + (k + U64 - (b.next + 1) % U64) % U64) % U64 = k := by
            unfold U64 at hk ⊢; omega
          rw [e] at this
          exact this
      obtain ⟨c1, v1, hc1, hv1, hv10⟩ := hocck
      rw [hc] at hc1
      simp only [Except.ok.injEq] at hc1
      subst hc1
      rw [hv] at hv1
      simp only [Option.some.injEq] at hv1
      omega
    · exact hok
  · exact ⟨_, _, probe_succ_free f hc0 hget (by omega)⟩

/-- One iteration of the outer loop on a table of `M` slots of which at most
`n < M` are assigned returns, whatever the counters of the backends are, and
assigns one more slot at most. -/
theorem populateStep_returns {M n : Nat} {bs : List Backend} {t : List Int}
    (hM : Nat.Prime M) (hU : M ≤ U32) (hN : 0 < bs.length)
    (hos : ∀ b ∈ bs, b.offset < M ∧ 1 ≤ b.skip ∧ b.skip < M)
    (hlen : t.length = M) (hcnt : t.countP (fun v => decide (0 ≤ v)) ≤ n) (hn : n < M) :
    ∃ t1, populateStep M bs t n = .ok t1 ∧ t1.length = M ∧
      t1.countP (fun v => decide (0 ≤ v)) ≤ n + 1 := by
  have hlt : n % bs.length < bs.length := Nat.mod_lt _ hN
  have hmem : bs.get ⟨n % bs.length, hlt⟩ ∈ bs := List.get_mem _ _ _
  obtain ⟨ho, hs1, hs⟩ := hos _ hmem
  have hn63 : n < 2 ^ 63 := by
    have : M ≤ 2 ^ 32 := hU
    omega
  obtain ⟨k, c, _, _, _, _, hprobe0⟩ :=
    probe_terminates (bs.get ⟨n % bs.length, hlt⟩) hM hU ho hs1 hs hlen (by omega)
  obtain ⟨i, _, _, hperm, ⟨v, hv, hv0⟩, _⟩ := probe_ok_inv U64 0 c _ U64_pos hprobe0
  have hfree : ∃ k1, k1 < U64 ∧ freeAt M t (bs.get ⟨n % bs.length, hlt⟩) k1 :=
    ⟨(0 + i) % U64, Nat.mod_lt _ U64_pos, c, v, hperm, hv, hv0⟩
  obtain ⟨c1, b1, hprobe⟩ := probe_exits (bs.get ⟨n % bs.length, hlt⟩) hM.pos hlen hfree
  obtain ⟨_, v1, hv1, hv10⟩ := probe_ok_free _ _ _ _ hprobe
  have hclt : c1 < t.length := by
    by_contra hnot
    rw [List.getElem?_eq_none (by omega)] at hv1
    cases hv1
  have hval : t[c1] = v1 := by
    rw [List.getElem?_eq_getElem hclt] at hv1
    exact Option.some.inj hv1
  refine ⟨t.set c1 b1.index, ?_, by rw [List.length_set]; exact hlen, ?_⟩
  · rw [populateStep_pick hn63 hN, hprobe]
  · rw [List.countP_set _ _ _ _ hclt, hval]
    have hfalse : decide (0 ≤ v1) = false := by
      rw [decide_eq_false_iff_not]; omega
    simp only [hfalse, Bool.false_eq_true, if_false, Nat.sub_zero]
    split <;> omega

/-- After the first `n ≤ M` iterations the outer loop has returned a table of `M`
slots of which at most `n` are assigned, whatever the counters of the backends are. -/
theorem populate_returns {M : Nat} {bs : List Backend} (hM : Nat.Prime M) (hU : M ≤ U32)
    (hN : 0 < bs.length) (hos : ∀ b ∈ bs, b.offset < M ∧ 1 ≤ b.skip ∧ b.skip < M) :
    ∀ n, n ≤ M → ∃ t, populate M bs (List.replicate M (-1)) (List.range n) = .ok t ∧
      t.length = M ∧ t.countP (fun v => decide (0 ≤ v)) ≤ n := by
  intro n
  induction n with
  | zero =>
    intro _
    refine ⟨_, rfl, List.length_replicate _ _, ?_⟩
    rw [Nat.le_zero, List.countP_eq_zero]
    intro a ha
    rw [List.eq_of_mem_replicate ha]
    decide
  | succ n ih =>
    intro hn
    obtain ⟨t, ht, hlen, hcnt⟩ := ih (by omega)
    obtain ⟨t1, hstep, hlen1, hcnt1⟩ := populateStep_returns hM hU hN hos hlen hcnt (by omega)
    refine ⟨t1, ?_, hlen1, hcnt1⟩
    rw [List.range_succ, populate_append, ht]
    simp only [populate, hstep]

/-- C12, as amended: for every prime `M` below `2^32` and every non-empty backend list
of length `N` with index = position and valid (offset, skip), `getLookupTable`
returns a table of `M` slots in which the number of slots equal to `i` is exactly
the number of `n` in `[0, M)` with `n mod N = i`: `⌊M/N⌋ + 1` for `i < M mod N` and
`⌊M/N⌋` for the other `i < N`, and 0 for `i ≥ N` (so 0 for every `i ≥ M` when
`N > M`), whatever the offsets and skips are. -/
theorem getLookupTable_exact_share (M : Nat) (backends : List Backend)
    (hM : Nat.Prime M) (hU : M < U32) (hne : backends ≠ [])
    (hidx : ∀ i, ∀ h : i < backends.length, (backends.get ⟨i, h⟩).index = (i : Int))
    (hos : ∀ b ∈ backends, b.offset < M ∧ 1 ≤ b.skip ∧ b.skip < M) :
    ∃ T, getLookupTable M backends M = .ok T ∧ T.length = M ∧ ∀ i : Nat,
      T.count (i : Int) = turns M backends.length i ∧
      (i < backends.length →
        T.count (i : Int) = M / backends.length + if i < M % backends.length then 1 else 0) ∧
      (backends.length ≤ i → T.count (i : Int) = 0) ∧
      (M < backends.length → M ≤ i → T.count (i : Int) = 0) := by
  have hN : 0 < backends.length := List.length_pos.mpr hne
  have hM63 : M < 2 ^ 63 := by
    have : M < 2 ^ 32 := hU
    omega
  obtain ⟨T, hT, hlen, _⟩ := populate_returns hM (le_of_lt hU) hN hos M (le_refl M)
  have hinv := populate_share hN hidx M (by omega) T hT
  refine ⟨T, ?_, hlen, ?_⟩
  · simp only [getLookupTable]
    rw [if_neg (by omega), if_neg (by omega)]
    exact hT
  · intro i
    have hcount := hinv.share i
    have hlt : i < backends.length →
        T.count (i : Int) = M / backends.length + if i < M % backends.length then 1 else 0 :=
      fun hi => by rw [hcount, turns_eq hi]
    have hge : backends.length ≤ i → T.count (i : Int) = 0 :=
      fun hi => by rw [hcount, turns_eq_zero hN hi]
    refine ⟨hcount, hlt, hge, ?_⟩
    intro hMN hMi
    by_cases hi : i < backends.length
    · rw [hlt hi, Nat.div_eq_of_lt hMN, Nat.mod_eq_of_lt hMN, if_neg (by omega)]
    · exact hge (by omega)

/-- The amended C12 at table size 7 with three backends, one of them with a counter
other than 0. -/
theorem getLookupTable_exact_share_witness :
    ∃ T, getLookupTable 7 [⟨⟨[]⟩, 0, 3, 4, 0⟩, ⟨⟨[]⟩, 1, 0, 2, 5⟩, ⟨⟨[]⟩, 2, 3, 6, 0⟩] 7 = .ok T ∧
      T.length = 7 ∧ ∀ i : Nat,
      T.count (i : Int) = turns 7
        ([⟨⟨[]⟩, 0, 3, 4, 0⟩, ⟨⟨[]⟩, 1, 0, 2, 5⟩, ⟨⟨[]⟩, 2, 3, 6, 0⟩] : List Backend).length i ∧
      (i < ([⟨⟨[]⟩, 0, 3, 4, 0⟩, ⟨⟨[]⟩, 1, 0, 2, 5⟩, ⟨⟨[]⟩, 2, 3, 6, 0⟩] : List Backend).length →
        T.count (i : Int)
          = 7 / ([⟨⟨[]⟩, 0, 3, 4, 0⟩, ⟨⟨[]⟩, 1, 0, 2, 5⟩, ⟨⟨[]⟩, 2, 3, 6, 0⟩] : List Backend).length
            + if i < 7 % ([⟨⟨[]⟩, 0, 3, 4, 0⟩, ⟨⟨[]⟩, 1, 0, 2, 5⟩, ⟨⟨[]⟩, 2, 3, 6, 0⟩] :
                List Backend).length then 1 else 0) ∧
      (([⟨⟨[]⟩, 0, 3, 4, 0⟩, ⟨⟨[]⟩, 1, 0, 2, 5⟩, ⟨⟨[]⟩, 2, 3, 6, 0⟩] : List Backend).length ≤ i →
        T.count (i : Int) = 0) ∧
      (7 < ([⟨⟨[]⟩, 0, 3, 4, 0⟩, ⟨⟨[]⟩, 1, 0, 2, 5⟩, ⟨⟨[]⟩, 2, 3, 6, 0⟩] : List Backend).length →
        7 ≤ i → T.count (i : Int) = 0) :=
  getLookupTable_exact_share 7 [⟨⟨[]⟩, 0, 3, 4, 0⟩, ⟨⟨[]⟩, 1, 0, 2, 5⟩, ⟨⟨[]⟩, 2, 3, 6, 0⟩]
    (by norm_num) (by decide) (by simp) (by decide) (by decide)

/-- C12 as stated fails: `2^32 + 15` is prime, the single backend with index 0 = its
position, offset 0 and skip `2^32` has a valid (offset, skip), and
`getLookupTable` returns no table whose slots could be counted: the collision
loop of iteration `2^32` never exits. -/
theorem getLookupTable_exact_share_counterexample :
    Nat.Prime wrapSize ∧ [wrapBackend] ≠ [] ∧
      (∀ i, ∀ h : i < [wrapBackend].length,
        ([wrapBackend].get ⟨i, h⟩).index = (i : Int)) ∧
      (∀ b ∈ [wrapBackend], b.offset < wrapSize ∧ 1 ≤ b.skip ∧ b.skip < wrapSize) ∧
      ¬ ∃ T, getLookupTable wrapSize [wrapBackend] wrapSize = .ok T := by
  refine ⟨wrapSize_prime, by simp, by decide, by decide, ?_⟩
  rintro ⟨T, hT⟩
  rw [wrap_diverges] at hT
  cases hT

/-! ## The counter kept by reference: the statement (C10) -/

end Maglev
